import Mathlib

/-!
Verification of the resource-to-file mapping engine of the iamy repository.

Strings from the Go source are modelled as `List Char` (Go regexp operates on
runes; none of the modelled strings require byte-level treatment except the
policy-document codec, which is modelled over bytes further below).  Each Go
regular expression used by the source is embedded as an executable function
implementing the leftmost-first (Perl-preference) matching semantics of Go's
regexp package for that specific pattern: greedy subexpressions are modelled
by trying the longer continuation first and falling back, exactly as the
backtracking preference order dictates.
-/

namespace Iamy

/-- Chars of a string literal. -/
def cs (s : String) : List Char := s.toList

/-! ## Account identity codec (part_001 lines 62-92, 260-274) -/

/-- Go struct `Account { Id, Alias string }`. -/
structure Account where
  Id : List Char
  Alias : List Char
  deriving DecidableEq, Repr

/-- Go `Account.String()`: `alias-id` when the alias is nonempty, else `id`. -/
def accountString (a : Account) : List Char :=
  if a.Alias = [] then a.Id else a.Alias ++ '-' :: a.Id

/-- Go regexp class `\w` (ASCII word character). -/
def isWordChar (c : Char) : Bool := c.isAlphanum || c = '_'

/-- Character class `[\w-]` of the account regexp. -/
def isWordHyphen (c : Char) : Bool := isWordChar c || c = '-'

/-- Matcher for the fragment `([\w-]*)-(\d+)$` of the anchored account regexp
`^(([\w-]+)-)?(\d+)$` (part_001 line 74), with the star expanded greedily:
the branch consuming the current character into the star is preferred, and
the literal `-` branch is tried on failure, mirroring leftmost-first
backtracking.  Returns (star part, digits). -/
def matchStarDashDigits : List Char → Option (List Char × List Char)
  | [] => none
  | c :: rest =>
    match (if isWordHyphen c then
             (matchStarDashDigits rest).map (fun r => (c :: r.1, r.2))
           else none) with
    | some r => some r
    | none =>
      if c = '-' ∧ rest ≠ [] ∧ rest.all Char.isDigit then some ([], rest) else none

/-- Matcher for `([\w-]+)-(\d+)$`: one mandatory `[\w-]` character followed by
the starred fragment.  Returns (alias group, digits group). -/
def matchPlusDashDigits : List Char → Option (List Char × List Char)
  | [] => none
  | c :: rest =>
    if isWordHyphen c then
      (matchStarDashDigits rest).map (fun r => (c :: r.1, r.2))
    else none

/-- Go `NewAccountFromString` (part_001 lines 76-92) without the panic: the
optional group `(([\w-]+)-)?` is greedy, so the alternative with the group
present is preferred; otherwise the whole string must be digits.  `none`
corresponds to the `panic` branch of the Go code. -/
def newAccountFromString (s : List Char) : Option Account :=
  match matchPlusDashDigits s with
  | some r => some ⟨r.2, r.1⟩
  | none => if s ≠ [] ∧ s.all Char.isDigit then some ⟨s, []⟩ else none

/-- Result of running the Go function, which panics (aborts the process)
when the regexp does not match. -/
inductive AccountResult where
  | ok (a : Account)
  | panicked
  deriving DecidableEq, Repr

/-- Go `NewAccountFromString` including its process-aborting panic branch. -/
def goNewAccountFromString (s : List Char) : AccountResult :=
  match newAccountFromString s with
  | some a => .ok a
  | none => .panicked

/-- Go `strings.TrimPrefix s pre`. -/
def stripLeading (s pre : List Char) : List Char :=
  if pre.isPrefixOf s then s.drop pre.length else s

/-- The string `arn:aws:iam::<id>:policy/` used by both policy-ARN helpers. -/
def policyArnPre (a : Account) : List Char :=
  cs (r"arn:aws:iam::") ++ a.Id ++ cs (r":policy/")

/-- Go `Account.policyArnFromString` (part_001 lines 264-270). -/
def policyArnFromString (a : Account) (nameOrArn : List Char) : List Char :=
  if (cs (r"arn:")).isPrefixOf nameOrArn then nameOrArn
  else policyArnPre a ++ nameOrArn

/-- Go `Account.normalisePolicyArn` (part_001 lines 272-274). -/
def normalisePolicyArn (a : Account) (arn : List Char) : List Char :=
  stripLeading arn (policyArnPre a)

/-! ### Basic list lemmas for the codecs -/

theorem isPre_append_self {α : Type} [BEq α] [LawfulBEq α] (p s : List α) :
    p.isPrefixOf (p ++ s) = true := by
  induction p with
  | nil => simp [List.isPrefixOf]
  | cons c cp ih => simp [List.isPrefixOf, ih]

theorem stripLeading_append (p s : List Char) : stripLeading (p ++ s) p = s := by
  simp [stripLeading, isPre_append_self, List.drop_left]

theorem accountString_nil (id : List Char) : accountString ⟨id, []⟩ = id := by
  simp [accountString]

theorem accountString_ne {a : Account} (h : a.Alias ≠ []) :
    accountString a = a.Alias ++ '-' :: a.Id := by
  simp [accountString, h]

/-! ### Soundness and greedy completeness of the account matcher -/

theorem wordHyphen_dash : isWordHyphen '-' = true := by decide

theorem msdd_cons_notwh {c : Char} (rest : List Char) (h : isWordHyphen c = false) :
    matchStarDashDigits (c :: rest) = none := by
  have hc : ¬ c = '-' := fun he => by rw [he] at h; exact absurd h (by decide)
  rw [matchStarDashDigits]
  simp [h, hc]

theorem msdd_cons_some {c : Char} {rest : List Char} {r : List Char × List Char}
    (h : isWordHyphen c = true) (hm : matchStarDashDigits rest = some r) :
    matchStarDashDigits (c :: rest) = some (c :: r.1, r.2) := by
  rw [matchStarDashDigits]
  simp [h, hm]

theorem msdd_cons_none {c : Char} {rest : List Char}
    (h : isWordHyphen c = true) (hm : matchStarDashDigits rest = none) :
    matchStarDashDigits (c :: rest) =
      (if c = '-' ∧ rest ≠ [] ∧ rest.all Char.isDigit then some ([], rest) else none) := by
  rw [matchStarDashDigits]
  simp [h, hm]

theorem msdd_sound : ∀ {t a d}, matchStarDashDigits t = some (a, d) →
    t = a ++ '-' :: d ∧ (∀ c ∈ a, isWordHyphen c = true) ∧ d ≠ [] ∧ d.all Char.isDigit = true := by
  intro t
  induction t with
  | nil => intro a d h; simp [matchStarDashDigits] at h
  | cons c rest ih =>
    intro a d h
    rcases hwh : isWordHyphen c with _ | _
    · rw [msdd_cons_notwh rest hwh] at h
      exact absurd h (by simp)
    · rcases hm : matchStarDashDigits rest with _ | r'
      · rw [msdd_cons_none hwh hm] at h
        split at h
        · rename_i hcond
          simp only [Option.some.injEq, Prod.mk.injEq] at h
          obtain ⟨ha, hd⟩ := h
          subst ha; subst hd
          exact ⟨by rw [hcond.1]; simp, by intro x hx; exact absurd hx (List.not_mem_nil x),
            hcond.2.1, hcond.2.2⟩
        · exact absurd h (by simp)
      · rw [msdd_cons_some hwh hm] at h
        simp only [Option.some.injEq, Prod.mk.injEq] at h
        obtain ⟨ha, hd⟩ := h
        obtain ⟨ht, hall, hne, hdig⟩ := ih hm
        subst ha; subst hd
        refine ⟨by rw [ht]; simp, ?_, hne, hdig⟩
        intro x hx
        rcases List.mem_cons.mp hx with hx' | hx'
        · rw [hx']; exact hwh
        · exact hall x hx'

theorem msdd_none_of_no_dash : ∀ {t : List Char}, '-' ∉ t → matchStarDashDigits t = none := by
  intro t
  induction t with
  | nil => intro _; rfl
  | cons c rest ih =>
    intro h
    have hc : ¬ c = '-' := fun hc => h (hc ▸ List.mem_cons_self c rest)
    have hr : '-' ∉ rest := fun hr => h (List.mem_cons_of_mem c hr)
    rcases hwh : isWordHyphen c with _ | _
    · exact msdd_cons_notwh rest hwh
    · rw [msdd_cons_none hwh (ih hr)]
      simp [hc]

theorem no_dash_of_digits {d : List Char} (h : d.all Char.isDigit = true) : '-' ∉ d := by
  intro hm
  have := List.all_eq_true.mp h '-' hm
  simp [Char.isDigit] at this

theorem msdd_eq : ∀ (X : List Char) {D : List Char}, (∀ c ∈ X, isWordHyphen c = true) →
    D ≠ [] → D.all Char.isDigit = true →
    matchStarDashDigits (X ++ '-' :: D) = some (X, D) := by
  intro X
  induction X with
  | nil =>
    intro D _ hne hdig
    rw [List.nil_append,
      msdd_cons_none wordHyphen_dash (msdd_none_of_no_dash (no_dash_of_digits hdig))]
    simp [hne, hdig]
  | cons c X' ih =>
    intro D hall hne hdig
    rw [List.cons_append,
      msdd_cons_some (hall c (List.mem_cons_self c X'))
        (ih (fun x hx => hall x (List.mem_cons_of_mem c hx)) hne hdig)]

theorem mpdd_sound {s a d : List Char} (h : matchPlusDashDigits s = some (a, d)) :
    s = a ++ '-' :: d ∧ a ≠ [] ∧ (∀ c ∈ a, isWordHyphen c = true) ∧ d ≠ [] ∧
      d.all Char.isDigit = true := by
  match s with
  | [] => simp [matchPlusDashDigits] at h
  | c :: rest =>
    rw [matchPlusDashDigits] at h
    split at h
    · rename_i hwh
      rcases hm : matchStarDashDigits rest with _ | r'
      · rw [hm] at h; simp at h
      · rw [hm] at h
        simp only [Option.map_some', Option.some.injEq, Prod.mk.injEq] at h
        obtain ⟨ha, hd⟩ := h
        obtain ⟨ht, hall, hne, hdig⟩ := msdd_sound hm
        subst ha; subst hd
        refine ⟨by rw [ht]; simp, by simp, ?_, hne, hdig⟩
        intro x hx
        rcases List.mem_cons.mp hx with hx' | hx'
        · rw [hx']; exact hwh
        · exact hall x hx'
    · exact absurd h (by simp)

theorem mpdd_eq (X : List Char) {D : List Char} (hX : X ≠ [])
    (hall : ∀ c ∈ X, isWordHyphen c = true) (hne : D ≠ [])
    (hdig : D.all Char.isDigit = true) :
    matchPlusDashDigits (X ++ '-' :: D) = some (X, D) := by
  match X, hX with
  | c :: X', _ =>
    rw [List.cons_append, matchPlusDashDigits]
    rw [msdd_eq X' (fun x hx => hall x (List.mem_cons_of_mem c hx)) hne hdig]
    simp [hall c (List.mem_cons_self c X')]

theorem mpdd_none_digits {s : List Char} (h : s.all Char.isDigit = true) :
    matchPlusDashDigits s = none := by
  match s with
  | [] => rfl
  | c :: rest =>
    have hrest : rest.all Char.isDigit = true := by
      simp only [List.all_cons, Bool.and_eq_true] at h; exact h.2
    rw [matchPlusDashDigits, msdd_none_of_no_dash (no_dash_of_digits hrest)]
    simp

/-! ### Claims C10, C7, C3 -/

/-- Claim C10: for every account and every policy reference string that does
not start with `arn:`, converting the bare name to a full ARN and then
normalising recovers the original name; a string that already starts with
`arn:` is returned unchanged by `policyArnFromString`. -/
theorem policyArn_roundtrip (a : Account) (s : List Char) :
    ((cs (r"arn:")).isPrefixOf s = false →
      normalisePolicyArn a (policyArnFromString a s) = s)
    ∧ ((cs (r"arn:")).isPrefixOf s = true → policyArnFromString a s = s) := by
  constructor
  · intro h
    rw [policyArnFromString, if_neg (by simp [h]), normalisePolicyArn, stripLeading_append]
  · intro h
    rw [policyArnFromString, if_pos (by simp [h])]

theorem policyArn_roundtrip_witness :
    (normalisePolicyArn ⟨cs (r"123456789012"), cs (r"prod")⟩
        (policyArnFromString ⟨cs (r"123456789012"), cs (r"prod")⟩ (cs (r"ReadOnly")))
      = cs (r"ReadOnly"))
    ∧ (policyArnFromString ⟨cs (r"123456789012"), cs (r"prod")⟩
        (cs (r"arn:aws:iam::aws:policy/AdministratorAccess"))
      = cs (r"arn:aws:iam::aws:policy/AdministratorAccess")) :=
  ⟨(policyArn_roundtrip ⟨cs (r"123456789012"), cs (r"prod")⟩ (cs (r"ReadOnly"))).1 (by decide),
   (policyArn_roundtrip ⟨cs (r"123456789012"), cs (r"prod")⟩
      (cs (r"arn:aws:iam::aws:policy/AdministratorAccess"))).2 (by decide)⟩

/-- Claim C7: the Go code panics (aborts the process) on a string matching
neither account pattern; it does not surface a `MalformedAccountIdentifier`
error to the caller.  Evaluating the modelled Go function at the failing
input `not-an-account` (which matches neither the alias-accountId pattern
nor the bare accountId pattern) yields the panic outcome. -/
theorem goNewAccountFromString_aborts :
    goNewAccountFromString (cs (r"not-an-account")) = AccountResult.panicked := by decide

/-- Claim C3, counterexample to the first direction as stated: the account
with `Id = "1-2"` and no alias has string form `1-2`, which Parse accepts,
yet parsing returns `{Id = "2", Alias = "1"}`, not the original account. -/
theorem account_roundtrip_counterexample :
    (newAccountFromString (accountString ⟨cs (r"1-2"), []⟩)).isSome = true
    ∧ newAccountFromString (accountString ⟨cs (r"1-2"), []⟩)
        ≠ some ⟨cs (r"1-2"), []⟩ := by decide

/-- Claim C3 as amended: restricted to accounts satisfying the documented
data-model invariant (numeric nonempty `Id`, word-or-hyphen `Alias`),
parsing the formatted string recovers exactly the same account; and in the
other direction, formatting any successfully parsed string reproduces the
input string, with no restriction. -/
theorem account_roundtrip :
    (∀ a : Account, a.Id ≠ [] → a.Id.all Char.isDigit = true →
      (∀ c ∈ a.Alias, isWordHyphen c = true) →
      newAccountFromString (accountString a) = some a)
    ∧ (∀ (s : List Char) (a : Account), newAccountFromString s = some a →
        accountString a = s) := by
  constructor
  · intro a hne hdig hal
    rcases a with ⟨id, al⟩
    simp only [] at hne hdig hal
    cases al with
    | nil =>
      rw [accountString_nil, newAccountFromString, mpdd_none_digits hdig]
      simp [hne, hdig]
    | cons c al' =>
      rw [accountString_ne (by simp)]
      rw [newAccountFromString, mpdd_eq (c :: al') (by simp) hal hne hdig]
  · intro s a h
    rw [newAccountFromString] at h
    rcases hm : matchPlusDashDigits s with _ | r
    · rw [hm] at h
      simp only [] at h
      split at h
      · simp only [Option.some.injEq] at h
        subst h
        exact accountString_nil s
      · exact absurd h (by simp)
    · rw [hm] at h
      simp only [Option.some.injEq] at h
      subst h
      obtain ⟨ht, hane, _, _, _⟩ := mpdd_sound hm
      rw [accountString_ne hane]
      exact ht.symm

theorem account_roundtrip_witness :
    (newAccountFromString (accountString ⟨cs (r"123456789012"), cs (r"prod")⟩)
      = some ⟨cs (r"123456789012"), cs (r"prod")⟩)
    ∧ accountString ⟨cs (r"99"), cs (r"dev-1")⟩ = cs (r"dev-1-99") :=
  ⟨account_roundtrip.1 ⟨cs (r"123456789012"), cs (r"prod")⟩ (by decide) (by decide) (by decide),
   account_roundtrip.2 (cs (r"dev-1-99")) ⟨cs (r"99"), cs (r"dev-1")⟩ (by decide)⟩

/-! ## Policy document values (part_001 line 14; the underlying
`yamljsonmap.StringKeyMap` is vendored outside this repository).

Modelled from the spec: a `PolicyDocument` is an ordered mapping from string
keys to arbitrary JSON-compatible values (strings, numbers, booleans, null,
nested mappings, sequences); the codec treats it opaquely.  Strings are byte
sequences (Go strings), numbers are modelled as integers. -/

mutual
inductive Jval where
  | null : Jval
  | boolean : Bool → Jval
  | num : Int → Jval
  | str : List Nat → Jval
  | arr : JArr → Jval
  | obj : JObj → Jval
inductive JArr where
  | nil : JArr
  | cons : Jval → JArr → JArr
inductive JObj where
  | nil : JObj
  | cons : List Nat → Jval → JObj → JObj
end

/-- Modelled from the spec: the generic ordered string-keyed mapping that a
policy body is parsed into. -/
def PolicyDocument := JObj

/-! ## Resource model (part_001 lines 104-184) -/

/-- Go struct `User` (part_001 lines 104-110).  `Name` and `Path` carry the
yaml tag `-`: they are never serialized to or read from the file body. -/
structure User where
  Name : List Char
  Path : List Char
  Groups : List (List Char)
  InlinePolicies : List (List Char × PolicyDocument)
  Policies : List (List Char)

/-- Go struct `Group` (part_001 lines 124-129); same `-` tags on Name/Path. -/
structure Group where
  Name : List Char
  Path : List Char
  InlinePolicies : List (List Char × PolicyDocument)
  Policies : List (List Char)

/-- Go struct `Role` (part_001 lines 166-172); same `-` tags on Name/Path. -/
structure Role where
  Name : List Char
  Path : List Char
  AssumeRolePolicyDocument : PolicyDocument
  InlinePolicies : List (List Char × PolicyDocument)
  Policies : List (List Char)

/-- Go struct `Policy` (part_001 lines 148-152); same `-` tags on Name/Path. -/
structure Policy where
  Name : List Char
  Path : List Char
  Policy : PolicyDocument

/-- The closed set of concrete types implementing the Go `AwsResource`
interface (part_001 lines 94-98). -/
inductive AwsRes where
  | user : User → AwsRes
  | group : Group → AwsRes
  | role : Role → AwsRes
  | policy : Policy → AwsRes

/-- The `Type()` method of each resource kind. -/
def rtype : AwsRes → List Char
  | .user _ => cs (r"user")
  | .group _ => cs (r"group")
  | .role _ => cs (r"role")
  | .policy _ => cs (r"policy")

/-- The `NameString()` method of each resource kind. -/
def nameString : AwsRes → List Char
  | .user u => u.Name
  | .group g => g.Name
  | .role rl => rl.Name
  | .policy p => p.Name

/-- The `PathString()` method of each resource kind. -/
def pathString : AwsRes → List Char
  | .user u => u.Path
  | .group g => g.Path
  | .role rl => rl.Path
  | .policy p => p.Path

/-! ## Path codec (part_000 lines 15-18, 47-58, 231-243)

The render side is the Go template
`{{.Account}}/{{.Resource.Type}}{{.Resource.Path}}{{.Resource.Name}}.yaml`;
executing it substitutes the four strings verbatim, so `renderPath` is plain
concatenation.  The decode side is the Go regexp
`^(?P<account>.+)/(?P<entity>(user|group|policy|role))(?P<path>.*/)(?P<name>.+)\.yaml$`
compiled with `regexp.MustCompile`, hence matched with leftmost-first
(Perl-preference) semantics: every greedy subexpression prefers the longer
match, and `.` matches any rune except newline.  Each fragment of the
pattern is embedded below as a function that tries the greedy continuation
first and falls back exactly as backtracking would. -/

/-- The newline character. -/
def chr10 : Char := Char.ofNat 10

/-- The Go regexp metacharacter `.`: any rune except newline. -/
def dotc (c : Char) : Bool := c != chr10

/-- The literal suffix `.yaml` of the pattern and the template. -/
def yamlExt : List Char := cs (r".yaml")

/-- The four entity keys, in the alternation order of the pattern. -/
def typeKeys : List (List Char) :=
  [cs (r"user"), cs (r"group"), cs (r"policy"), cs (r"role")]

/-- Go `renderPath` applied to the `pathTemplate` (part_000 lines 16,
231-243): concatenation of account string, type key, resource path,
resource name and the `.yaml` suffix. -/
def renderPath (account ty path name : List Char) : List Char :=
  account ++ '/' :: (ty ++ path ++ name ++ yamlExt)

/-- Matcher for the fragment `(?P<name>.+)\.yaml$`: the greedy `.+` prefers
taking the current character into the name, falling back to an empty
continuation exactly when the remainder is the literal `.yaml`. -/
def matchNameYaml : List Char → Option (List Char)
  | [] => none
  | c :: rest =>
    if dotc c then
      match matchNameYaml rest with
      | some n => some (c :: n)
      | none => if rest = yamlExt then some [c] else none
    else none

/-- Matcher for `(?P<path>.*/)(?P<name>.+)\.yaml$`: the greedy `.*` of the
path group prefers consuming the current character; on failure the current
character must be the literal `/` closing the path group. -/
def matchPathName : List Char → Option (List Char × List Char)
  | [] => none
  | c :: rest =>
    match (if dotc c then (matchPathName rest).map (fun r => (c :: r.1, r.2)) else none) with
    | some r => some r
    | none =>
      if c = '/' then (matchNameYaml rest).map (fun n => ([c], n)) else none

/-- The alternation `(?P<entity>(user|group|policy|role))` tried in order.
The four keys have pairwise distinct first characters, so at most one
alternative can match at a given position and no backtracking between
alternatives arises. -/
def stripTypeKey (s : List Char) : Option (List Char × List Char) :=
  if (cs (r"user")).isPrefixOf s then some (cs (r"user"), s.drop (cs (r"user")).length)
  else if (cs (r"group")).isPrefixOf s then some (cs (r"group"), s.drop (cs (r"group")).length)
  else if (cs (r"policy")).isPrefixOf s then some (cs (r"policy"), s.drop (cs (r"policy")).length)
  else if (cs (r"role")).isPrefixOf s then some (cs (r"role"), s.drop (cs (r"role")).length)
  else none

/-- Matcher for the pattern after the first literal `/`:
`(?P<entity>(user|group|policy|role))(?P<path>.*/)(?P<name>.+)\.yaml$`. -/
def matchEntityTail (s : List Char) : Option (List Char × List Char × List Char) :=
  match stripTypeKey s with
  | some kr => (matchPathName kr.2).map (fun pn => (kr.1, pn.1, pn.2))
  | none => none

/-- Matcher for `(.*)/(?P<entity>...)...$`: the greedy account star prefers
consuming the current character (so the account group extends to the last
viable `/`), falling back to closing the account group at the current
literal `/`. -/
def matchAcctStar : List Char → Option (List Char × (List Char × List Char × List Char))
  | [] => none
  | c :: rest =>
    match (if dotc c then (matchAcctStar rest).map (fun r => (c :: r.1, r.2)) else none) with
    | some r => some r
    | none =>
      if c = '/' then (matchEntityTail rest).map (fun t => (([] : List Char), t)) else none

/-- Go `namedMatch(pathRegex, fp)` (part_000 lines 17, 47-58): the four
capture groups (account, entity, path, name), or `none` when the pattern
does not match.  The leading `.+` of the account group is one mandatory
character followed by the greedy star. -/
def parsePath (s : List Char) : Option (List Char × List Char × List Char × List Char) :=
  match s with
  | [] => none
  | c :: rest =>
    if dotc c then
      (matchAcctStar rest).map (fun a => (c :: a.1, a.2.1, a.2.2.1, a.2.2.2))
    else none


/-! ### Name matcher: soundness and completeness -/

theorem mny_yamlExt : matchNameYaml yamlExt = none := by decide

theorem mny_eq : ∀ {n : List Char}, n ≠ [] → (∀ c ∈ n, dotc c = true) →
    matchNameYaml (n ++ yamlExt) = some n := by
  intro n
  induction n with
  | nil => intro h _; exact absurd rfl h
  | cons c n' ih =>
    intro _ hall
    rw [List.cons_append, matchNameYaml]
    rw [if_pos (hall c (List.mem_cons_self c n'))]
    cases n' with
    | nil =>
      rw [List.nil_append, mny_yamlExt]
      simp
    | cons d n'' =>
      rw [ih (by simp) (fun x hx => hall x (List.mem_cons_of_mem c hx))]

theorem mny_cons_notdot {c : Char} (rest : List Char) (h : dotc c = false) :
    matchNameYaml (c :: rest) = none := by
  rw [matchNameYaml]
  simp [h]

theorem mny_cons_some {c : Char} {rest n : List Char}
    (hdot : dotc c = true) (hm : matchNameYaml rest = some n) :
    matchNameYaml (c :: rest) = some (c :: n) := by
  rw [matchNameYaml]
  simp [hdot, hm]

theorem mny_cons_none {c : Char} {rest : List Char}
    (hdot : dotc c = true) (hm : matchNameYaml rest = none) :
    matchNameYaml (c :: rest) = (if rest = yamlExt then some [c] else none) := by
  rw [matchNameYaml]
  simp [hdot, hm]

theorem mny_sound : ∀ {t n : List Char}, matchNameYaml t = some n →
    t = n ++ yamlExt ∧ n ≠ [] ∧ (∀ c ∈ n, dotc c = true) := by
  intro t
  induction t with
  | nil => intro n h; simp [matchNameYaml] at h
  | cons c rest ih =>
    intro n h
    rcases hdot : dotc c with _ | _
    · rw [mny_cons_notdot rest hdot] at h
      exact absurd h (by simp)
    · rcases hm : matchNameYaml rest with _ | n'
      · rw [mny_cons_none hdot hm] at h
        split at h
        · rename_i hext
          simp only [Option.some.injEq] at h
          subst h
          refine ⟨by rw [hext]; rfl, by simp, ?_⟩
          intro x hx
          rcases List.mem_cons.mp hx with hx' | hx'
          · rw [hx']; exact hdot
          · exact absurd hx' (List.not_mem_nil x)
        · exact absurd h (by simp)
      · rw [mny_cons_some hdot hm] at h
        simp only [Option.some.injEq] at h
        obtain ⟨ht, hne, hall⟩ := ih hm
        subst h
        refine ⟨by rw [ht]; rfl, by simp, ?_⟩
        intro x hx
        rcases List.mem_cons.mp hx with hx' | hx'
        · rw [hx']; exact hdot
        · exact hall x hx'

/-! ### Path-and-name matcher: soundness and greedy completeness -/

theorem mpn_cons_some {c : Char} {rest : List Char} {r : List Char × List Char}
    (hdot : dotc c = true) (hm : matchPathName rest = some r) :
    matchPathName (c :: rest) = some (c :: r.1, r.2) := by
  rw [matchPathName]
  simp [hdot, hm]

theorem mpn_cons_none {c : Char} {rest : List Char}
    (hm : matchPathName rest = none) :
    matchPathName (c :: rest) =
      (if c = '/' then (matchNameYaml rest).map (fun n => ([c], n)) else none) := by
  rw [matchPathName]
  rcases hdot : dotc c with _ | _
  · simp [hdot]
  · simp [hdot, hm]

theorem dotc_slash : dotc '/' = true := by decide

theorem mpn_none_of_no_slash : ∀ {t : List Char}, '/' ∉ t → matchPathName t = none := by
  intro t
  induction t with
  | nil => intro _; rfl
  | cons c rest ih =>
    intro h
    have hc : ¬ c = '/' := fun hc => h (hc ▸ List.mem_cons_self c rest)
    have hr : '/' ∉ rest := fun hr => h (List.mem_cons_of_mem c hr)
    rw [mpn_cons_none (ih hr)]
    simp [hc]

theorem no_slash_yamlExt : '/' ∉ yamlExt := by decide

theorem mpn_none_last_slash : ∀ {m : List Char}, '/' ∉ m →
    matchPathName (m ++ '/' :: yamlExt) = none := by
  intro m
  induction m with
  | nil =>
    intro _
    rw [List.nil_append, mpn_cons_none (mpn_none_of_no_slash no_slash_yamlExt)]
    simp [mny_yamlExt]
  | cons c m' ih =>
    intro h
    have hc : ¬ c = '/' := fun hc => h (hc ▸ List.mem_cons_self c m')
    have hr : '/' ∉ m' := fun hr => h (List.mem_cons_of_mem c hr)
    rw [List.cons_append, mpn_cons_none (ih hr)]
    simp [hc]

theorem dropLast_mem {c : Char} : ∀ {n : List Char}, c ∈ n.dropLast → c ∈ n := by
  intro n h
  exact List.dropLast_subset n h

theorem mpn_eq : ∀ (p0 : List Char) {n : List Char}, (∀ c ∈ p0 ++ ['/'], dotc c = true) →
    n ≠ [] → '/' ∉ n.dropLast → (∀ c ∈ n, dotc c = true) →
    matchPathName (p0 ++ '/' :: (n ++ yamlExt)) = some (p0 ++ ['/'], n) := by
  intro p0
  induction p0 with
  | nil =>
    intro n hallp hne hnd hall
    have hA : matchPathName (n ++ yamlExt) = none := by
      rcases Decidable.em ('/' ∈ n) with hin | hout
      · have hlast : n.getLast hne = '/' := by
          have h2 := List.dropLast_append_getLast hne
          rcases List.mem_append.mp (h2 ▸ hin) with h3 | h3
          · exact absurd h3 hnd
          · exact (List.mem_singleton.mp h3).symm
        have h2 : n = n.dropLast ++ ['/'] := by
          conv_lhs => rw [← List.dropLast_append_getLast hne]
          rw [hlast]
        rw [h2, List.append_assoc, List.singleton_append]
        exact mpn_none_last_slash hnd
      · refine mpn_none_of_no_slash ?_
        intro hmem
        rcases List.mem_append.mp hmem with h3 | h3
        · exact hout h3
        · exact no_slash_yamlExt h3
    rw [List.nil_append, mpn_cons_none hA, if_pos rfl, mny_eq hne hall]
    rfl
  | cons c p0' ih =>
    intro n hall hne hnd halln
    rw [List.cons_append,
      mpn_cons_some (hall c (List.mem_cons_self c _))
        (ih (fun x hx => hall x (List.mem_cons_of_mem c hx)) hne hnd halln)]
    rfl

theorem slash_ne_chr10 : ¬ ('/' = chr10) := by decide

theorem eq_chr10_of_not_dotc {c : Char} (h : dotc c = false) : c = chr10 := by
  rw [dotc, bne_eq_false_iff_eq] at h
  exact h

theorem mpn_cons_notdot {c : Char} (rest : List Char) (h : dotc c = false) :
    matchPathName (c :: rest) = none := by
  have hc : ¬ c = '/' := fun he => slash_ne_chr10 (he ▸ eq_chr10_of_not_dotc h)
  rw [matchPathName]
  simp [h, hc]

theorem mpn_sound : ∀ {t : List Char} {p n : List Char}, matchPathName t = some (p, n) →
    t = p ++ n ++ yamlExt ∧ (∃ p0, p = p0 ++ ['/']) ∧ (∀ c ∈ p, dotc c = true) ∧
      n ≠ [] ∧ (∀ c ∈ n, dotc c = true) := by
  intro t
  induction t with
  | nil => intro p n h; simp [matchPathName] at h
  | cons c rest ih =>
    intro p n h
    rcases hdot : dotc c with _ | _
    · rw [mpn_cons_notdot rest hdot] at h
      exact absurd h (by simp)
    · rcases hm : matchPathName rest with _ | r'
      · rw [mpn_cons_none hm] at h
        split at h
        · rename_i hc
          rcases hn : matchNameYaml rest with _ | n'
          · rw [hn] at h; exact absurd h (by simp)
          · rw [hn] at h
            simp only [Option.map_some', Option.some.injEq, Prod.mk.injEq] at h
            obtain ⟨hp, hnn⟩ := h
            obtain ⟨hrest, hne, hall⟩ := mny_sound hn
            subst hp; subst hnn
            subst hc
            refine ⟨by rw [hrest]; rfl, ⟨[], rfl⟩, ?_, hne, hall⟩
            intro x hx
            rcases List.mem_cons.mp hx with hx' | hx'
            · rw [hx']; exact dotc_slash
            · exact absurd hx' (List.not_mem_nil x)
        · exact absurd h (by simp)
      · rw [mpn_cons_some hdot hm] at h
        simp only [Option.some.injEq, Prod.mk.injEq] at h
        obtain ⟨hp, hnn⟩ := h
        obtain ⟨hrest, ⟨p0, hp0⟩, hallp, hne, halln⟩ := ih hm
        subst hp; subst hnn
        refine ⟨by rw [hrest]; rfl, ⟨c :: p0, by rw [hp0]; rfl⟩, ?_, hne, halln⟩
        intro x hx
        rcases List.mem_cons.mp hx with hx' | hx'
        · rw [hx']; exact hdot
        · exact hallp x hx'

/-! ### Entity alternation -/

theorem isPre_iff : ∀ (p s : List Char), p.isPrefixOf s = true ↔ ∃ t, s = p ++ t := by
  intro p
  induction p with
  | nil => intro s; simp [List.isPrefixOf]
  | cons c p' ih =>
    intro s
    cases s with
    | nil => simp [List.isPrefixOf]
    | cons d s' =>
      simp only [List.isPrefixOf, Bool.and_eq_true, beq_iff_eq, List.cons_append,
        List.cons.injEq]
      rw [ih s']
      constructor
      · rintro ⟨h1, t, h2⟩; exact ⟨t, h1.symm, h2⟩
      · rintro ⟨t, h1, h2⟩; exact ⟨h1.symm, t, h2⟩

theorem isPre_head {p s : List Char} (h : p.isPrefixOf s = true) (hp : p ≠ []) :
    p.head? = s.head? := by
  obtain ⟨t, rfl⟩ := (isPre_iff p s).mp h
  cases p with
  | nil => exact absurd rfl hp
  | cons c p' => rfl

theorem keys_mem_user : cs (r"user") ∈ typeKeys := by decide
theorem keys_mem_group : cs (r"group") ∈ typeKeys := by decide
theorem keys_mem_policy : cs (r"policy") ∈ typeKeys := by decide
theorem keys_mem_role : cs (r"role") ∈ typeKeys := by decide

theorem stk_eq {k : List Char} (hk : k ∈ typeKeys) (t : List Char) :
    stripTypeKey (k ++ t) = some (k, t) := by
  have huser : ∀ u : List Char, u.head? = some 'u' → ∀ h : (cs (r"user")).isPrefixOf u = true,
      u = cs (r"user") ++ u.drop (cs (r"user")).length := by
    intro u _ h
    obtain ⟨x, rfl⟩ := (isPre_iff _ u).mp h
    rw [List.drop_left]
  simp only [typeKeys, List.mem_cons, List.not_mem_nil, or_false] at hk
  rcases hk with rfl | rfl | rfl | rfl
  · rw [stripTypeKey, if_pos (isPre_append_self _ t), List.drop_left]
  · have h1 : ¬ ((cs (r"user")).isPrefixOf (cs (r"group") ++ t) = true) := by
      intro hc
      have h2 : some 'u' = some 'g' := isPre_head hc (by decide)
      simp at h2
    rw [stripTypeKey, if_neg (by simpa using h1), if_pos (isPre_append_self _ t),
      List.drop_left]
  · have h1 : ¬ ((cs (r"user")).isPrefixOf (cs (r"policy") ++ t) = true) := by
      intro hc
      have h2 : some 'u' = some 'p' := isPre_head hc (by decide)
      simp at h2
    have h2 : ¬ ((cs (r"group")).isPrefixOf (cs (r"policy") ++ t) = true) := by
      intro hc
      have h3 : some 'g' = some 'p' := isPre_head hc (by decide)
      simp at h3
    rw [stripTypeKey, if_neg (by simpa using h1), if_neg (by simpa using h2),
      if_pos (isPre_append_self _ t), List.drop_left]
  · have h1 : ¬ ((cs (r"user")).isPrefixOf (cs (r"role") ++ t) = true) := by
      intro hc
      have h2 : some 'u' = some 'r' := isPre_head hc (by decide)
      simp at h2
    have h2 : ¬ ((cs (r"group")).isPrefixOf (cs (r"role") ++ t) = true) := by
      intro hc
      have h3 : some 'g' = some 'r' := isPre_head hc (by decide)
      simp at h3
    have h3 : ¬ ((cs (r"policy")).isPrefixOf (cs (r"role") ++ t) = true) := by
      intro hc
      have h4 : some 'p' = some 'r' := isPre_head hc (by decide)
      simp at h4
    rw [stripTypeKey, if_neg (by simpa using h1), if_neg (by simpa using h2),
      if_neg (by simpa using h3), if_pos (isPre_append_self _ t), List.drop_left]

theorem stk_sound {s k t : List Char} (h : stripTypeKey s = some (k, t)) :
    s = k ++ t ∧ k ∈ typeKeys := by
  rw [stripTypeKey] at h
  split at h
  · rename_i hc
    simp only [Option.some.injEq, Prod.mk.injEq] at h
    obtain ⟨rfl, rfl⟩ := h
    obtain ⟨x, hx⟩ := (isPre_iff _ s).mp hc
    refine ⟨by rw [hx, List.drop_left], keys_mem_user⟩
  · split at h
    · rename_i hc
      simp only [Option.some.injEq, Prod.mk.injEq] at h
      obtain ⟨rfl, rfl⟩ := h
      obtain ⟨x, hx⟩ := (isPre_iff _ s).mp hc
      refine ⟨by rw [hx, List.drop_left], keys_mem_group⟩
    · split at h
      · rename_i hc
        simp only [Option.some.injEq, Prod.mk.injEq] at h
        obtain ⟨rfl, rfl⟩ := h
        obtain ⟨x, hx⟩ := (isPre_iff _ s).mp hc
        refine ⟨by rw [hx, List.drop_left], keys_mem_policy⟩
      · split at h
        · rename_i hc
          simp only [Option.some.injEq, Prod.mk.injEq] at h
          obtain ⟨rfl, rfl⟩ := h
          obtain ⟨x, hx⟩ := (isPre_iff _ s).mp hc
          refine ⟨by rw [hx, List.drop_left], keys_mem_role⟩
        · exact absurd h (by simp)

/-- Does the string start with one of the four entity keys. -/
def keyAt (s : List Char) : Bool :=
  (cs (r"user")).isPrefixOf s || (cs (r"group")).isPrefixOf s ||
    (cs (r"policy")).isPrefixOf s || (cs (r"role")).isPrefixOf s

theorem stk_none_of_keyAt_false {s : List Char} (h : keyAt s = false) :
    stripTypeKey s = none := by
  rw [keyAt] at h
  simp only [Bool.or_eq_false_iff] at h
  rw [stripTypeKey, if_neg (by simp [h.1.1.1]), if_neg (by simp [h.1.1.2]),
    if_neg (by simp [h.1.2]), if_neg (by simp [h.2])]

theorem met_none_of_keyAt_false {s : List Char} (h : keyAt s = false) :
    matchEntityTail s = none := by
  rw [matchEntityTail, stk_none_of_keyAt_false h]

theorem met_none_of_no_slash {s : List Char} (h : '/' ∉ s) : matchEntityTail s = none := by
  rw [matchEntityTail]
  rcases hstk : stripTypeKey s with _ | kr
  · rfl
  · have hs := (stk_sound (show stripTypeKey s = some (kr.1, kr.2) by rw [hstk])).1
    have h2 : '/' ∉ kr.2 := fun hmem => h (by rw [hs]; exact List.mem_append.mpr (Or.inr hmem))
    show Option.map (fun pn => (kr.1, pn.1, pn.2)) (matchPathName kr.2) = none
    rw [mpn_none_of_no_slash h2]
    rfl

theorem met_eq {k : List Char} (hk : k ∈ typeKeys) (p0 : List Char) {n : List Char}
    (hallp : ∀ c ∈ p0 ++ ['/'], dotc c = true) (hne : n ≠ [])
    (hnd : '/' ∉ n.dropLast) (halln : ∀ c ∈ n, dotc c = true) :
    matchEntityTail (k ++ (p0 ++ '/' :: (n ++ yamlExt))) = some (k, p0 ++ ['/'], n) := by
  rw [matchEntityTail, stk_eq hk]
  show Option.map _ (matchPathName (p0 ++ '/' :: (n ++ yamlExt))) = _
  rw [mpn_eq p0 hallp hne hnd halln]
  rfl

theorem met_sound {s k p n : List Char} (h : matchEntityTail s = some (k, p, n)) :
    s = k ++ p ++ n ++ yamlExt ∧ k ∈ typeKeys ∧ (∃ p0, p = p0 ++ ['/']) ∧
      (∀ c ∈ p, dotc c = true) ∧ n ≠ [] ∧ (∀ c ∈ n, dotc c = true) := by
  rw [matchEntityTail] at h
  rcases hstk : stripTypeKey s with _ | kr
  · rw [hstk] at h; exact absurd h (by simp)
  · rw [hstk] at h
    simp only [] at h
    rcases hm : matchPathName kr.2 with _ | pn
    · rw [hm] at h; exact absurd h (by simp)
    · rw [hm] at h
      simp only [Option.map_some', Option.some.injEq, Prod.mk.injEq] at h
      obtain ⟨hkk, hpp, hnn⟩ := h
      obtain ⟨hs, hkeys⟩ := stk_sound (show stripTypeKey s = some (kr.1, kr.2) by rw [hstk])
      obtain ⟨ht, hex, hallp, hne, halln⟩ :=
        mpn_sound (show matchPathName kr.2 = some (pn.1, pn.2) by rw [hm])
      subst hkk; subst hpp; subst hnn
      refine ⟨?_, hkeys, hex, hallp, hne, halln⟩
      rw [hs, ht]
      simp [List.append_assoc]

/-! ### Account star and the full pattern -/

theorem mas_cons_notdot {c : Char} (rest : List Char) (h : dotc c = false) :
    matchAcctStar (c :: rest) = none := by
  have hc : ¬ c = '/' := fun he => slash_ne_chr10 (he ▸ eq_chr10_of_not_dotc h)
  rw [matchAcctStar]
  simp [h, hc]

theorem mas_cons_some {c : Char} {rest : List Char}
    {r : List Char × (List Char × List Char × List Char)}
    (hdot : dotc c = true) (hm : matchAcctStar rest = some r) :
    matchAcctStar (c :: rest) = some (c :: r.1, r.2) := by
  rw [matchAcctStar]
  simp [hdot, hm]

theorem mas_cons_none {c : Char} {rest : List Char}
    (hm : matchAcctStar rest = none) :
    matchAcctStar (c :: rest) =
      (if c = '/' then (matchEntityTail rest).map (fun t => (([] : List Char), t))
       else none) := by
  rw [matchAcctStar]
  rcases hdot : dotc c with _ | _
  · have hc : ¬ c = '/' := fun he => slash_ne_chr10 (he ▸ eq_chr10_of_not_dotc hdot)
    simp [hdot, hc]
  · simp [hdot, hm]

theorem mas_none : ∀ {s : List Char},
    (∀ x y, s = x ++ '/' :: y → matchEntityTail y = none) → matchAcctStar s = none := by
  intro s
  induction s with
  | nil => intro _; rfl
  | cons c rest ih =>
    intro h
    have hrest : matchAcctStar rest = none :=
      ih (fun x y hxy => h (c :: x) y (by rw [hxy]; rfl))
    rw [mas_cons_none hrest]
    split
    · rename_i hc
      rw [h [] rest (by rw [hc]; rfl)]
      rfl
    · rfl

theorem mas_eq : ∀ (A : List Char) {tail : List Char}
    {r : List Char × List Char × List Char},
    (∀ c ∈ A, dotc c = true) → matchAcctStar tail = none →
    matchEntityTail tail = some r →
    matchAcctStar (A ++ '/' :: tail) = some (A, r) := by
  intro A
  induction A with
  | nil =>
    intro tail r _ hnone hmet
    rw [List.nil_append, mas_cons_none hnone, if_pos rfl, hmet]
    rfl
  | cons c A' ih =>
    intro tail r hall hnone hmet
    rw [List.cons_append,
      mas_cons_some (hall c (List.mem_cons_self c A'))
        (ih (fun x hx => hall x (List.mem_cons_of_mem c hx)) hnone hmet)]

theorem mas_sound : ∀ {s : List Char} {a : List Char}
    {r : List Char × List Char × List Char}, matchAcctStar s = some (a, r) →
    ∃ y, s = a ++ '/' :: y ∧ (∀ c ∈ a, dotc c = true) ∧ matchEntityTail y = some r := by
  intro s
  induction s with
  | nil => intro a r h; simp [matchAcctStar] at h
  | cons c rest ih =>
    intro a r h
    rcases hdot : dotc c with _ | _
    · rw [mas_cons_notdot rest hdot] at h
      exact absurd h (by simp)
    · rcases hm : matchAcctStar rest with _ | r'
      · rw [mas_cons_none hm] at h
        split at h
        · rename_i hc
          rcases hmet : matchEntityTail rest with _ | t'
          · rw [hmet] at h; exact absurd h (by simp)
          · rw [hmet] at h
            simp only [Option.map_some', Option.some.injEq, Prod.mk.injEq] at h
            obtain ⟨ha, ht⟩ := h
            subst ha; subst ht
            exact ⟨rest, by rw [hc]; rfl, by intro x hx; exact absurd hx (List.not_mem_nil x),
              hmet⟩
        · exact absurd h (by simp)
      · rw [mas_cons_some hdot hm] at h
        simp only [Option.some.injEq, Prod.mk.injEq] at h
        obtain ⟨ha, ht⟩ := h
        obtain ⟨y, hy, hall, hmet⟩ :=
          ih (show matchAcctStar rest = some (r'.1, r'.2) by rw [hm])
        subst ha; subst ht
        refine ⟨y, by rw [hy]; rfl, ?_, hmet⟩
        intro x hx
        rcases List.mem_cons.mp hx with hx' | hx'
        · rw [hx']; exact hdot
        · exact hall x hx'

theorem mas_isSome : ∀ (A : List Char) {tail : List Char},
    (∀ c ∈ A, dotc c = true) → (matchEntityTail tail).isSome = true →
    (matchAcctStar (A ++ '/' :: tail)).isSome = true := by
  intro A
  induction A with
  | nil =>
    intro tail _ hmet
    rw [List.nil_append]
    rcases hm : matchAcctStar tail with _ | r'
    · rw [mas_cons_none hm, if_pos rfl]
      rcases hmet2 : matchEntityTail tail with _ | t
      · rw [hmet2] at hmet; exact absurd hmet (by simp)
      · rfl
    · rw [mas_cons_some dotc_slash hm]
      rfl
  | cons c A' ih =>
    intro tail hall hmet
    have h2 := ih (fun x hx => hall x (List.mem_cons_of_mem c hx)) hmet
    rcases hm : matchAcctStar (A' ++ '/' :: tail) with _ | r'
    · rw [hm] at h2; exact absurd h2 (by simp)
    · rw [List.cons_append, mas_cons_some (hall c (List.mem_cons_self c A')) hm]
      rfl

theorem pp_eq {A tail : List Char} {r : List Char × List Char × List Char}
    (hne : A ≠ []) (hall : ∀ c ∈ A, dotc c = true)
    (hnone : matchAcctStar tail = none) (hmet : matchEntityTail tail = some r) :
    parsePath (A ++ '/' :: tail) = some (A, r) := by
  match A, hne with
  | c :: A', _ =>
    rw [List.cons_append, parsePath,
      if_pos (hall c (List.mem_cons_self c A')),
      mas_eq A' (fun x hx => hall x (List.mem_cons_of_mem c hx)) hnone hmet]
    rfl

theorem pp_sound {s : List Char} {a k p n : List Char}
    (h : parsePath s = some (a, k, p, n)) :
    ∃ y, s = a ++ '/' :: y ∧ a ≠ [] ∧ (∀ c ∈ a, dotc c = true) ∧
      matchEntityTail y = some (k, p, n) := by
  match s with
  | [] => simp [parsePath] at h
  | c :: rest =>
    rw [parsePath] at h
    split at h
    · rename_i hdot
      rcases hm : matchAcctStar rest with _ | ar
      · rw [hm] at h; exact absurd h (by simp)
      · rw [hm] at h
        simp only [Option.map_some', Option.some.injEq, Prod.mk.injEq] at h
        obtain ⟨ha, hk, hp, hn⟩ := h
        obtain ⟨y, hy, hall, hmet⟩ :=
          mas_sound (show matchAcctStar rest = some (ar.1, ar.2) by rw [hm])
        refine ⟨y, by rw [hy, ← ha]; rfl, by rw [← ha]; simp, ?_,
          by rw [hmet, show ar.2 = (k, p, n) from by rw [← hk, ← hp, ← hn]]⟩
        intro x hx
        rw [← ha] at hx
        rcases List.mem_cons.mp hx with hx' | hx'
        · rw [hx']; exact hdot
        · exact hall x hx'
    · exact absurd h (by simp)

theorem pp_isSome {A tail : List Char} (hne : A ≠ [])
    (hall : ∀ c ∈ A, dotc c = true) (hmet : (matchEntityTail tail).isSome = true) :
    (parsePath (A ++ '/' :: tail)).isSome = true := by
  match A, hne with
  | c :: A', _ =>
    rw [List.cons_append, parsePath, if_pos (hall c (List.mem_cons_self c A'))]
    have h2 := mas_isSome A' (fun x hx => hall x (List.mem_cons_of_mem c hx)) hmet
    rcases hm : matchAcctStar (A' ++ '/' :: tail) with _ | r'
    · rw [hm] at h2; exact absurd h2 (by simp)
    · rfl

/-! ### Splitting lemmas for the greedy account group -/

theorem split_strip : ∀ {u : List Char} {v x y : List Char},
    u ++ v = x ++ '/' :: y → '/' ∉ u → ∃ x2, x = u ++ x2 ∧ v = x2 ++ '/' :: y := by
  intro u
  induction u with
  | nil => intro v x y h _; exact ⟨x, rfl, h⟩
  | cons c u' ih =>
    intro v x y h hu
    cases x with
    | nil =>
      rw [List.nil_append] at h
      have hc : c = '/' := (List.cons.injEq _ _ _ _).mp h |>.1
      exact absurd (hc ▸ List.mem_cons_self c u') hu
    | cons d x' =>
      rw [List.cons_append] at h
      obtain ⟨hcd, h2⟩ := (List.cons.injEq _ _ _ _).mp h
      obtain ⟨x2, hx2, hv⟩ := ih h2 (fun hm => hu (List.mem_cons_of_mem c hm))
      exact ⟨x2, by rw [hcd, hx2]; rfl, hv⟩

theorem split_inside : ∀ {P : List Char} {rest x y : List Char},
    P ++ rest = x ++ '/' :: y → '/' ∉ rest → ∃ P2, P = x ++ '/' :: P2 ∧ y = P2 ++ rest := by
  intro P
  induction P with
  | nil =>
    intro rest x y h hrest
    rw [List.nil_append] at h
    exact absurd (h ▸ List.mem_append.mpr (Or.inr (List.mem_cons_self '/' y))) hrest
  | cons c P' ih =>
    intro rest x y h hrest
    cases x with
    | nil =>
      rw [List.nil_append] at h
      obtain ⟨hc, h2⟩ := (List.cons.injEq _ _ _ _).mp h
      exact ⟨P', by rw [hc]; rfl, h2.symm⟩
    | cons d x' =>
      rw [List.cons_append] at h
      obtain ⟨hcd, h2⟩ := (List.cons.injEq _ _ _ _).mp h
      obtain ⟨P2, hP2, hy⟩ := ih h2 hrest
      exact ⟨P2, by rw [hcd, hP2]; rfl, hy⟩

theorem slash_mem_of_concat_eq : ∀ {x2 : List Char} {p0 P2 : List Char},
    p0 ++ ['/'] = x2 ++ '/' :: P2 → P2 ≠ [] → '/' ∈ P2 := by
  intro x2
  induction x2 with
  | nil =>
    intro p0 P2 h hne
    rw [List.nil_append] at h
    cases p0 with
    | nil =>
      rw [List.nil_append] at h
      obtain ⟨_, h2⟩ := (List.cons.injEq _ _ _ _).mp h
      exact absurd h2.symm hne
    | cons c p0' =>
      rw [List.cons_append] at h
      obtain ⟨_, h2⟩ := (List.cons.injEq _ _ _ _).mp h
      rw [← h2]
      exact List.mem_append.mpr (Or.inr (List.mem_cons_self '/' []))
  | cons c x2' ih =>
    intro p0 P2 h hne
    cases p0 with
    | nil =>
      rw [List.nil_append] at h
      obtain ⟨_, h2⟩ := (List.cons.injEq _ _ _ _).mp h
      exact absurd h2 (by simp)
    | cons d p0' =>
      rw [List.cons_append] at h
      obtain ⟨_, h2⟩ := (List.cons.injEq _ _ _ _).mp h
      exact ih h2 hne

theorem isPre_stable_of_slash : ∀ {k : List Char} {P2 rest : List Char},
    '/' ∉ k → '/' ∈ P2 → k.isPrefixOf (P2 ++ rest) = k.isPrefixOf P2 := by
  intro k
  induction k with
  | nil => intro P2 rest _ _; simp [List.isPrefixOf]
  | cons c k' ih =>
    intro P2 rest hk h2
    cases P2 with
    | nil => exact absurd h2 (List.not_mem_nil '/')
    | cons d P2' =>
      rw [List.cons_append]
      show ((c == d) && k'.isPrefixOf (P2' ++ rest)) = ((c == d) && k'.isPrefixOf P2')
      rcases hcd : (c == d) with _ | _
      · rfl
      · have hc : ¬ c = '/' := fun hm => hk (hm ▸ List.mem_cons_self c k')
        have hd : c = d := by simpa using hcd
        have h2' : '/' ∈ P2' := by
          rcases List.mem_cons.mp h2 with hx | hx
          · exact absurd (hd ▸ hx.symm) hc
          · exact hx
        rw [ih (fun hm => hk (List.mem_cons_of_mem c hm)) h2']

theorem keyAt_stable_of_slash {P2 rest : List Char} (h2 : '/' ∈ P2) :
    keyAt (P2 ++ rest) = keyAt P2 := by
  rw [keyAt, keyAt,
    isPre_stable_of_slash (by decide) h2, isPre_stable_of_slash (by decide) h2,
    isPre_stable_of_slash (by decide) h2, isPre_stable_of_slash (by decide) h2]

/-- No nonempty suffix of the string that follows a `/` begins with one of
the four entity keys.  This is the side condition under which the greedy
account group cannot extend past the true account/entity boundary. -/
def noKeySegs : List Char → Bool
  | [] => true
  | c :: rest => (if c = '/' ∧ rest ≠ [] then !(keyAt rest) else true) && noKeySegs rest

theorem noKeySegs_split : ∀ {P : List Char}, noKeySegs P = true →
    ∀ x y, P = x ++ '/' :: y → y ≠ [] → keyAt y = false := by
  intro P
  induction P with
  | nil => intro _ x y h _; exact absurd h (by simp)
  | cons c P' ih =>
    intro hseg x y h hne
    have hsplit : noKeySegs (c :: P') = true := hseg
    rw [noKeySegs, Bool.and_eq_true] at hsplit
    cases x with
    | nil =>
      rw [List.nil_append] at h
      obtain ⟨hc, h2⟩ := (List.cons.injEq _ _ _ _).mp h
      have := hsplit.1
      rw [if_pos ⟨hc, by rw [← h2] at hne; exact hne⟩] at this
      rw [← h2]
      simpa using this
    | cons d x' =>
      rw [List.cons_append] at h
      obtain ⟨_, h2⟩ := (List.cons.injEq _ _ _ _).mp h
      exact ih hsplit.2 x' y h2 hne

theorem tail_no_second_match {K p0 N : List Char} (hK : '/' ∉ K) (hN : '/' ∉ N)
    (hseg : noKeySegs (p0 ++ ['/']) = true) :
    ∀ x y, K ++ (p0 ++ '/' :: (N ++ yamlExt)) = x ++ '/' :: y →
      matchEntityTail y = none := by
  intro x y h
  obtain ⟨x2, _, hv⟩ := split_strip h hK
  have hv2 : (p0 ++ ['/']) ++ (N ++ yamlExt) = x2 ++ '/' :: y := by
    rw [List.append_assoc, List.singleton_append]
    exact hv
  have hrest : '/' ∉ N ++ yamlExt := by
    intro hm
    rcases List.mem_append.mp hm with hm' | hm'
    · exact hN hm'
    · exact no_slash_yamlExt hm'
  obtain ⟨P2, hP2, hy⟩ := split_inside hv2 hrest
  cases Decidable.em (P2 = []) with
  | inl hP2nil =>
    rw [hy, hP2nil, List.nil_append]
    exact met_none_of_no_slash hrest
  | inr hP2ne =>
    have hslash : '/' ∈ P2 := slash_mem_of_concat_eq hP2 hP2ne
    have hka : keyAt y = false := by
      rw [hy, keyAt_stable_of_slash hslash]
      exact noKeySegs_split hseg x2 P2 hP2 hP2ne
    exact met_none_of_keyAt_false hka

/-! ### Claim C1 -/

/-- Claim C1, counterexample to the round-trip as stated: for account `123`
(accepted by render, as is every account) and the user `bob` at the
legitimate hierarchical path `/user/`, the rendered path is
`123/user/user/bob.yaml`; the greedy account group `(?P<account>.+)` prefers
the longest viable match and absorbs `/user`, so parsing returns account
`123/user` and path `/`, not the four original components. -/
theorem path_roundtrip_counterexample :
    parsePath (renderPath (accountString ⟨cs (r"123"), []⟩)
        (rtype (AwsRes.user ⟨cs (r"bob"), cs (r"/user/"), [], [], []⟩))
        (pathString (AwsRes.user ⟨cs (r"bob"), cs (r"/user/"), [], [], []⟩))
        (nameString (AwsRes.user ⟨cs (r"bob"), cs (r"/user/"), [], [], []⟩)))
      = some (cs (r"123/user"), cs (r"user"), cs (r"/"), cs (r"bob"))
    ∧ cs (r"123/user") ≠ accountString ⟨cs (r"123"), []⟩
    ∧ cs (r"/") ≠ pathString (AwsRes.user ⟨cs (r"bob"), cs (r"/user/"), [], [], []⟩) :=
  ⟨by decide, by decide, by decide⟩

/-- Claim C1 as amended: the round trip
`Parse(Render(a, r)) = (a.String, r.Type, r.PathString, r.NameString)` holds
for every account and resource whose components are well formed (account
string nonempty and newline-free; resource path nonempty, ending in `/`,
newline-free; resource name nonempty, slash-free and newline-free) under the
additional proviso forced by the counterexample: no nonempty suffix of the
resource path that follows a `/` may begin with one of the four entity keys
(`noKeySegs`); otherwise the greedy account group absorbs part of the path. -/
theorem path_roundtrip (a : Account) (R : AwsRes)
    (hA1 : accountString a ≠ []) (hA2 : ∀ c ∈ accountString a, dotc c = true)
    (hP : ∃ p0, pathString R = p0 ++ ['/'])
    (hP2 : ∀ c ∈ pathString R, dotc c = true)
    (hP3 : noKeySegs (pathString R) = true)
    (hN1 : nameString R ≠ []) (hN2 : '/' ∉ nameString R)
    (hN3 : ∀ c ∈ nameString R, dotc c = true) :
    parsePath (renderPath (accountString a) (rtype R) (pathString R) (nameString R))
      = some (accountString a, rtype R, pathString R, nameString R) := by
  obtain ⟨p0, hp0⟩ := hP
  have hkmem : rtype R ∈ typeKeys := by
    cases R
    · exact keys_mem_user
    · exact keys_mem_group
    · exact keys_mem_role
    · exact keys_mem_policy
  have hknoslash : '/' ∉ rtype R := by
    cases R
    · show '/' ∉ cs (r"user"); decide
    · show '/' ∉ cs (r"group"); decide
    · show '/' ∉ cs (r"role"); decide
    · show '/' ∉ cs (r"policy"); decide
  have hshape : renderPath (accountString a) (rtype R) (pathString R) (nameString R)
      = accountString a ++ '/' :: (rtype R ++ (p0 ++ '/' :: (nameString R ++ yamlExt))) := by
    rw [renderPath, hp0]
    simp [List.append_assoc]
  have hnd : '/' ∉ (nameString R).dropLast :=
    fun hm => hN2 (List.dropLast_subset _ hm)
  have hmet : matchEntityTail (rtype R ++ (p0 ++ '/' :: (nameString R ++ yamlExt)))
      = some (rtype R, p0 ++ ['/'], nameString R) := by
    refine met_eq hkmem p0 ?_ hN1 hnd hN3
    rw [← hp0]
    exact hP2
  have hnone : matchAcctStar (rtype R ++ (p0 ++ '/' :: (nameString R ++ yamlExt))) = none := by
    refine mas_none ?_
    intro x y hxy
    exact tail_no_second_match hknoslash hN2 (hp0 ▸ hP3) x y hxy
  rw [hshape, pp_eq hA1 hA2 hnone hmet, hp0]

theorem path_roundtrip_witness :
    parsePath (renderPath (accountString ⟨cs (r"999"), []⟩)
        (rtype (AwsRes.role ⟨cs (r"deploy"), cs (r"/svc/"), JObj.nil, [], []⟩))
        (pathString (AwsRes.role ⟨cs (r"deploy"), cs (r"/svc/"), JObj.nil, [], []⟩))
        (nameString (AwsRes.role ⟨cs (r"deploy"), cs (r"/svc/"), JObj.nil, [], []⟩)))
      = some (accountString ⟨cs (r"999"), []⟩,
          rtype (AwsRes.role ⟨cs (r"deploy"), cs (r"/svc/"), JObj.nil, [], []⟩),
          pathString (AwsRes.role ⟨cs (r"deploy"), cs (r"/svc/"), JObj.nil, [], []⟩),
          nameString (AwsRes.role ⟨cs (r"deploy"), cs (r"/svc/"), JObj.nil, [], []⟩)) :=
  path_roundtrip ⟨cs (r"999"), []⟩
    (AwsRes.role ⟨cs (r"deploy"), cs (r"/svc/"), JObj.nil, [], []⟩)
    (by decide) (by decide) ⟨cs (r"/svc"), by decide⟩ (by decide) (by decide)
    (by decide) (by decide) (by decide)

/-! ### Claim C4 -/

theorem normalize_pn : ∀ (fuel : Nat) (n p0 : List Char), n.length ≤ fuel → n ≠ [] →
    (∀ c ∈ p0 ++ ['/'], dotc c = true) → (∀ c ∈ n, dotc c = true) →
    ∃ q0 m, (p0 ++ ['/']) ++ n = (q0 ++ ['/']) ++ m ∧ m ≠ [] ∧ '/' ∉ m.dropLast ∧
      (∀ c ∈ q0 ++ ['/'], dotc c = true) ∧ (∀ c ∈ m, dotc c = true) := by
  intro fuel
  induction fuel with
  | zero =>
    intro n p0 hlen hne _ _
    rw [Nat.le_zero, List.length_eq_zero] at hlen
    exact absurd hlen hne
  | succ fuel ih =>
    intro n p0 hlen hne hp hn
    rcases Decidable.em ('/' ∈ n.dropLast) with hin | hout
    · obtain ⟨s, t, hst⟩ := List.append_of_mem hin
      have hlast := List.dropLast_append_getLast hne
      have hsplit : n = s ++ '/' :: (t ++ [n.getLast hne]) := by
        conv_lhs => rw [← hlast]
        rw [hst]
        simp [List.append_assoc]
      have hmem_s : ∀ c ∈ s, c ∈ n := by
        intro c hc
        refine List.dropLast_subset n ?_
        rw [hst]
        exact List.mem_append.mpr (Or.inl hc)
      have hmem_t : ∀ c ∈ t, c ∈ n := by
        intro c hc
        refine List.dropLast_subset n ?_
        rw [hst]
        exact List.mem_append.mpr (Or.inr (List.mem_cons_of_mem '/' hc))
      have hlen2 : (t ++ [n.getLast hne]).length ≤ fuel := by
        have h1 : n.length = s.length + 1 + (t.length + 1) := by
          rw [hsplit]
          simp [List.length_append]
          omega
        simp only [List.length_append, List.length_cons, List.length_nil]
        omega
      have hq : ∀ c ∈ (p0 ++ '/' :: s) ++ ['/'], dotc c = true := by
        intro c hc
        rcases List.mem_append.mp hc with hc' | hc'
        · rcases List.mem_append.mp hc' with hc2 | hc2
          · exact hp c (List.mem_append.mpr (Or.inl hc2))
          · rcases List.mem_cons.mp hc2 with hc3 | hc3
            · rw [hc3]; exact dotc_slash
            · exact hn c (hmem_s c hc3)
        · rcases List.mem_cons.mp hc' with hc3 | hc3
          · rw [hc3]; exact dotc_slash
          · exact absurd hc3 (List.not_mem_nil c)
      have hm : ∀ c ∈ t ++ [n.getLast hne], dotc c = true := by
        intro c hc
        rcases List.mem_append.mp hc with hc' | hc'
        · exact hn c (hmem_t c hc')
        · rcases List.mem_cons.mp hc' with hc3 | hc3
          · rw [hc3]; exact hn _ (List.getLast_mem hne)
          · exact absurd hc3 (List.not_mem_nil c)
      obtain ⟨q0, m, heq, hm1, hm2, hq2, hm3⟩ :=
        ih (t ++ [n.getLast hne]) (p0 ++ '/' :: s) hlen2 (by simp) hq hm
      refine ⟨q0, m, ?_, hm1, hm2, hq2, hm3⟩
      rw [← heq]
      conv_lhs => rw [hsplit]
      simp [List.append_assoc]
    · exact ⟨p0, n, rfl, hne, hout, hp, hn⟩

/-- Claim C4, counterexample to the characterization as stated: the pattern
accepts `x/user/bob.yaml`, whose account group `x` is not a canonical
account string (the account parser rejects it), so the accepted set is
strictly larger than claimed. -/
theorem parse_pattern_counterexample :
    parsePath (cs (r"x/user/bob.yaml"))
      = some (cs (r"x"), cs (r"user"), cs (r"/"), cs (r"bob"))
    ∧ newAccountFromString (cs (r"x")) = none :=
  ⟨by decide, by decide⟩

/-- Claim C4 as amended: a relative path matches the parse pattern exactly
when it can be written as `<account>/<typeKey><path><name>.yaml` where the
account part is any nonempty newline-free string (not necessarily a
canonical account string; it may even contain `/`), the type key is one of
`user`, `group`, `policy`, `role`, the path part is nonempty, newline-free
and ends with `/` (it need not begin with `/`), and the name part is
nonempty and newline-free. -/
theorem parse_pattern_characterization (s : List Char) :
    (parsePath s).isSome = true ↔
      ∃ a k p n, s = renderPath a k p n ∧ a ≠ [] ∧ (∀ c ∈ a, dotc c = true) ∧
        k ∈ typeKeys ∧ (∃ p0, p = p0 ++ ['/']) ∧ (∀ c ∈ p, dotc c = true) ∧
        n ≠ [] ∧ (∀ c ∈ n, dotc c = true) := by
  constructor
  · intro h
    rcases hq : parsePath s with _ | q
    · rw [hq] at h; exact absurd h (by simp)
    · obtain ⟨y, hy, hane, haall, hmet⟩ :=
        pp_sound (show parsePath s = some (q.1, q.2.1, q.2.2.1, q.2.2.2) by rw [hq])
      obtain ⟨hyshape, hkmem, hex, hpall, hnne, hnall⟩ := met_sound hmet
      refine ⟨q.1, q.2.1, q.2.2.1, q.2.2.2, ?_, hane, haall, hkmem, hex, hpall, hnne, hnall⟩
      rw [hy, hyshape, renderPath]
  · rintro ⟨a, k, p, n, hs, hane, haall, hkmem, ⟨p0, hp0⟩, hpall, hnne, hnall⟩
    obtain ⟨q0, m, heq, hm1, hm2, hq2, hm3⟩ :=
      normalize_pn n.length n p0 le_rfl hnne (by rw [← hp0]; exact hpall) hnall
    have h2 : q0 ++ '/' :: (m ++ yamlExt) = p0 ++ '/' :: (n ++ yamlExt) := by
      have h3 := congrArg (fun l => l ++ yamlExt) heq
      simp only [List.append_assoc, List.singleton_append] at h3
      exact h3.symm
    have hshape : s = a ++ '/' :: (k ++ (q0 ++ '/' :: (m ++ yamlExt))) := by
      rw [hs, renderPath, hp0, h2]
      simp [List.append_assoc]
    rw [hshape]
    refine pp_isSome hane haall ?_
    rw [met_eq hkmem q0 hq2 hm1 hm2 hm3]
    rfl

theorem parse_pattern_characterization_witness :
    (parsePath (cs (r"123/policy/x.yaml"))).isSome = true :=
  (parse_pattern_characterization (cs (r"123/policy/x.yaml"))).mpr
    ⟨cs (r"123"), cs (r"policy"), cs (r"/"), cs (r"x"), by decide, by decide,
      by decide, keys_mem_policy, ⟨[], by decide⟩, by decide, by decide, by decide⟩

/-! ## File-tree loader (part_000 lines 60-134)

The filesystem walk and the yaml unmarshalling are the process boundary of
`Load`: they are modelled by an environment holding the list of relative
file paths in walk order and, for each path and target resource type, the
outcome of `unmarshalYamlFile` (`none` is a read or deserialization
failure, which Go surfaces as `return nil, err`).  Because `Name` and
`Path` carry the yaml tag `-`, unmarshalling never touches them and the
loader overwrites both from the path captures (part_000 lines 90-91, 99-100,
108-109, 117-118), which the model mirrors with a record update. -/

/-- Go struct `AccountData` (part_001 lines 186-192). -/
structure AccountData where
  Account : Account
  Users : List User
  Groups : List Group
  Roles : List Role
  Policies : List Policy

/-- Go `NewAccountData` (part_001 lines 194-202); `none` is the panic inside
`NewAccountFromString`. -/
def newAccountData (s : List Char) : Option AccountData :=
  (newAccountFromString s).map (fun a => ⟨a, [], [], [], []⟩)

/-- Read-and-unmarshal outcomes per relative path. -/
structure LoadEnv where
  userYaml : List Char → Option User
  groupYaml : List Char → Option Group
  roleYaml : List Char → Option Role
  policyYaml : List Char → Option Policy

/-- Outcome of one step of the loading loop over the accounts map, which is
modelled as an association list in insertion order (the Go map holds the
same entries; only its random iteration order differs, which no claim
depends on). -/
inductive StepRes where
  | ok (accs : List (List Char × AccountData))
  | err
  | panicked

/-- Go `accounts[accountid]` get-or-create (part_000 lines 79-81). -/
def getOrCreate (accs : List (List Char × AccountData)) (key : List Char) :
    Option (List (List Char × AccountData)) :=
  if accs.any (fun e => e.1 == key) then some accs
  else (newAccountData key).map (fun ad => accs ++ [(key, ad)])

/-- Append a user to the entry of the given account key (Go `addUser`). -/
def addUserTo (accs : List (List Char × AccountData)) (key : List Char) (u : User) :
    List (List Char × AccountData) :=
  accs.map (fun e => if e.1 = key then (e.1, { e.2 with Users := e.2.Users ++ [u] }) else e)

/-- Append a group to the entry of the given account key (Go `addGroup`). -/
def addGroupTo (accs : List (List Char × AccountData)) (key : List Char) (g : Group) :
    List (List Char × AccountData) :=
  accs.map (fun e => if e.1 = key then (e.1, { e.2 with Groups := e.2.Groups ++ [g] }) else e)

/-- Append a role to the entry of the given account key (Go `addRole`). -/
def addRoleTo (accs : List (List Char × AccountData)) (key : List Char) (rl : Role) :
    List (List Char × AccountData) :=
  accs.map (fun e => if e.1 = key then (e.1, { e.2 with Roles := e.2.Roles ++ [rl] }) else e)

/-- Append a policy to the entry of the given account key (Go `addPolicy`). -/
def addPolicyTo (accs : List (List Char × AccountData)) (key : List Char) (p : Policy) :
    List (List Char × AccountData) :=
  accs.map (fun e => if e.1 = key then (e.1, { e.2 with Policies := e.2.Policies ++ [p] }) else e)

/-- The `switch entity` of `Load` (part_000 lines 83-122): unmarshal into the
type selected by the entity capture, overwrite `Name`/`Path` from the path
captures, and append; an unmarshal failure is `err` (Go `return nil, err`),
and the `default` branch is the Go `panic("Unexpected entity")`. -/
def loadEntity (env : LoadEnv) (fp acct ent p n : List Char)
    (accs : List (List Char × AccountData)) : StepRes :=
  if ent = cs (r"user") then
    match env.userYaml fp with
    | none => .err
    | some u => .ok (addUserTo accs acct { u with Name := n, Path := p })
  else if ent = cs (r"group") then
    match env.groupYaml fp with
    | none => .err
    | some g => .ok (addGroupTo accs acct { g with Name := n, Path := p })
  else if ent = cs (r"role") then
    match env.roleYaml fp with
    | none => .err
    | some rl => .ok (addRoleTo accs acct { rl with Name := n, Path := p })
  else if ent = cs (r"policy") then
    match env.policyYaml fp with
    | none => .err
    | some pl => .ok (addPolicyTo accs acct { pl with Name := n, Path := p })
  else .panicked

/-- The file loop of `Load` (part_000 lines 69-126).  The second component
collects the paths reported as skipped (`log.Println("Skipping", fp)`); on
an abort the log contains the skips reported before the abort. -/
def loadLoop (env : LoadEnv) : List (List Char) → List (List Char × AccountData) →
    StepRes × List (List Char)
  | [], accs => (.ok accs, [])
  | fp :: rest, accs =>
    match parsePath fp with
    | none =>
      ((loadLoop env rest accs).1, fp :: (loadLoop env rest accs).2)
    | some q =>
      match getOrCreate accs q.1 with
      | none => (.panicked, [])
      | some accs2 =>
        match loadEntity env fp q.1 q.2.1 q.2.2.1 q.2.2.2 accs2 with
        | .err => (.err, [])
        | .panicked => (.panicked, [])
        | .ok accs3 => loadLoop env rest accs3

/-- The Go return value of `Load`: either the pair (accounts slice, error
flag) — on error the slice is nil, modelled as `none` — or a panic. -/
inductive GoLoad where
  | ret (accounts : Option (List AccountData)) (isErr : Bool)
  | panicked

/-- Go `YamlLoadDumper.Load` on the walk result `files`, paired with the
skip log. -/
def load (env : LoadEnv) (files : List (List Char)) : GoLoad × List (List Char) :=
  match loadLoop env files [] with
  | (.ok accs, sk) => (.ret (some (accs.map (fun e => e.2))) false, sk)
  | (.err, sk) => (.ret none true, sk)
  | (.panicked, sk) => (.panicked, sk)

/-! ### Unfolding lemmas for the loading loop -/

theorem loadLoop_cons_none {env : LoadEnv} {fp : List Char} (rest : List (List Char))
    (accs : List (List Char × AccountData)) (h : parsePath fp = none) :
    loadLoop env (fp :: rest) accs
      = ((loadLoop env rest accs).1, fp :: (loadLoop env rest accs).2) := by
  rw [loadLoop]
  simp only [h]

theorem loadLoop_cons_nacct {env : LoadEnv} {fp : List Char}
    {q : List Char × List Char × List Char × List Char} (rest : List (List Char))
    {accs : List (List Char × AccountData)} (h : parsePath fp = some q)
    (hg : getOrCreate accs q.1 = none) :
    loadLoop env (fp :: rest) accs = (.panicked, []) := by
  rw [loadLoop]
  simp only [h, hg]

theorem loadLoop_cons_err {env : LoadEnv} {fp : List Char}
    {q : List Char × List Char × List Char × List Char} (rest : List (List Char))
    {accs accs2 : List (List Char × AccountData)} (h : parsePath fp = some q)
    (hg : getOrCreate accs q.1 = some accs2)
    (hl : loadEntity env fp q.1 q.2.1 q.2.2.1 q.2.2.2 accs2 = .err) :
    loadLoop env (fp :: rest) accs = (.err, []) := by
  rw [loadLoop]
  simp only [h, hg, hl]

theorem loadLoop_cons_epanic {env : LoadEnv} {fp : List Char}
    {q : List Char × List Char × List Char × List Char} (rest : List (List Char))
    {accs accs2 : List (List Char × AccountData)} (h : parsePath fp = some q)
    (hg : getOrCreate accs q.1 = some accs2)
    (hl : loadEntity env fp q.1 q.2.1 q.2.2.1 q.2.2.2 accs2 = .panicked) :
    loadLoop env (fp :: rest) accs = (.panicked, []) := by
  rw [loadLoop]
  simp only [h, hg, hl]

theorem loadLoop_cons_ok {env : LoadEnv} {fp : List Char}
    {q : List Char × List Char × List Char × List Char} (rest : List (List Char))
    {accs accs2 accs3 : List (List Char × AccountData)} (h : parsePath fp = some q)
    (hg : getOrCreate accs q.1 = some accs2)
    (hl : loadEntity env fp q.1 q.2.1 q.2.2.1 q.2.2.2 accs2 = .ok accs3) :
    loadLoop env (fp :: rest) accs = loadLoop env rest accs3 := by
  rw [loadLoop]
  simp only [h, hg, hl]

/-! ### Claim C5 -/

theorem loadLoop_skip (env : LoadEnv) (fp : List Char) (h : parsePath fp = none) :
    ∀ (pre post : List (List Char)) (accs : List (List Char × AccountData)),
      (loadLoop env (pre ++ fp :: post) accs).1 = (loadLoop env (pre ++ post) accs).1
      ∧ ((loadLoop env (pre ++ fp :: post) accs).2 = (loadLoop env (pre ++ post) accs).2
         ∨ ∃ l1 l2, (loadLoop env (pre ++ fp :: post) accs).2 = l1 ++ fp :: l2
             ∧ (loadLoop env (pre ++ post) accs).2 = l1 ++ l2) := by
  intro pre
  induction pre with
  | nil =>
    intro post accs
    rw [List.nil_append, List.nil_append, loadLoop_cons_none post accs h]
    exact ⟨rfl, Or.inr ⟨[], (loadLoop env post accs).2, rfl, rfl⟩⟩
  | cons p0 pre' ih =>
    intro post accs
    rw [List.cons_append, List.cons_append]
    rcases hp : parsePath p0 with _ | q
    · rw [loadLoop_cons_none (pre' ++ fp :: post) accs hp,
        loadLoop_cons_none (pre' ++ post) accs hp]
      obtain ⟨h1, h2⟩ := ih post accs
      refine ⟨h1, ?_⟩
      rcases h2 with h2 | ⟨l1, l2, h3, h4⟩
      · exact Or.inl (by rw [h2])
      · exact Or.inr ⟨p0 :: l1, l2, by rw [h3]; rfl, by rw [h4]; rfl⟩
    · rcases hg : getOrCreate accs q.1 with _ | accs2
      · rw [loadLoop_cons_nacct (pre' ++ fp :: post) hp hg,
          loadLoop_cons_nacct (pre' ++ post) hp hg]
        exact ⟨rfl, Or.inl rfl⟩
      · rcases hl : loadEntity env p0 q.1 q.2.1 q.2.2.1 q.2.2.2 accs2 with accs3 | _ | _
        · rw [loadLoop_cons_ok (pre' ++ fp :: post) hp hg hl,
            loadLoop_cons_ok (pre' ++ post) hp hg hl]
          exact ih post accs3
        · rw [loadLoop_cons_err (pre' ++ fp :: post) hp hg hl,
            loadLoop_cons_err (pre' ++ post) hp hg hl]
          exact ⟨rfl, Or.inl rfl⟩
        · rw [loadLoop_cons_epanic (pre' ++ fp :: post) hp hg hl,
            loadLoop_cons_epanic (pre' ++ post) hp hg hl]
          exact ⟨rfl, Or.inl rfl⟩

/-- Claim C5: a file whose relative path does not match the pattern is
skipped by `Load`: the returned value (accounts and error status) is
exactly the value `Load` returns without that file present, so the file
contributes to no `AccountData` and causes no error; and the skip is
reported — the skip log of the run with the file is the log of the run
without it with the file's path inserted (the first disjunct can occur
only when an abort on an earlier file ends the loop before the file is
reached, in which case the two runs are identical). -/
theorem load_skips_unmatched (env : LoadEnv) (pre post : List (List Char))
    (fp : List Char) (h : parsePath fp = none) :
    (load env (pre ++ fp :: post)).1 = (load env (pre ++ post)).1
    ∧ ((load env (pre ++ fp :: post)).2 = (load env (pre ++ post)).2
       ∨ ∃ l1 l2, (load env (pre ++ fp :: post)).2 = l1 ++ fp :: l2
           ∧ (load env (pre ++ post)).2 = l1 ++ l2) := by
  obtain ⟨h1, h2⟩ := loadLoop_skip env fp h pre post []
  rw [load, load]
  rcases hres : loadLoop env (pre ++ fp :: post) [] with ⟨r1, sk1⟩
  rcases hres2 : loadLoop env (pre ++ post) [] with ⟨r2, sk2⟩
  rw [hres, hres2] at h1 h2
  simp only [] at h1 h2
  subst h1
  cases r1 with
  | ok accs => exact ⟨rfl, h2⟩
  | err => exact ⟨rfl, h2⟩
  | panicked => exact ⟨rfl, h2⟩

theorem load_skips_unmatched_witness :
    (load ⟨fun _ => none, fun _ => none, fun _ => none, fun _ => none⟩
        ([] ++ cs (r"readme.txt") :: [])).1
      = (load ⟨fun _ => none, fun _ => none, fun _ => none, fun _ => none⟩ ([] ++ [])).1
    ∧ ((load ⟨fun _ => none, fun _ => none, fun _ => none, fun _ => none⟩
          ([] ++ cs (r"readme.txt") :: [])).2
        = (load ⟨fun _ => none, fun _ => none, fun _ => none, fun _ => none⟩ ([] ++ [])).2
       ∨ ∃ l1 l2, (load ⟨fun _ => none, fun _ => none, fun _ => none, fun _ => none⟩
            ([] ++ cs (r"readme.txt") :: [])).2 = l1 ++ cs (r"readme.txt") :: l2
          ∧ (load ⟨fun _ => none, fun _ => none, fun _ => none, fun _ => none⟩
              ([] ++ [])).2 = l1 ++ l2) :=
  load_skips_unmatched ⟨fun _ => none, fun _ => none, fun _ => none, fun _ => none⟩
    [] [] (cs (r"readme.txt")) (by decide)

/-! ### Claim C6 -/

theorem parse_ent_key {fp : List Char} {q : List Char × List Char × List Char × List Char}
    (h : parsePath fp = some q) : q.2.1 ∈ typeKeys := by
  obtain ⟨y, _, _, _, hmet⟩ :=
    pp_sound (show parsePath fp = some (q.1, q.2.1, q.2.2.1, q.2.2.2) by rw [h])
  exact (met_sound hmet).2.1

/-- The file's contents cannot be deserialized into the resource type
selected by its entity capture. -/
def entityYamlFails (env : LoadEnv) (fp ent : List Char) : Prop :=
  (ent = cs (r"user") ∧ env.userYaml fp = none) ∨
  (ent = cs (r"group") ∧ env.groupYaml fp = none) ∨
  (ent = cs (r"role") ∧ env.roleYaml fp = none) ∨
  (ent = cs (r"policy") ∧ env.policyYaml fp = none)

theorem loadEntity_err_of_fails {env : LoadEnv} {fp ent : List Char}
    (acct p n : List Char) (accs : List (List Char × AccountData))
    (h : entityYamlFails env fp ent) :
    loadEntity env fp acct ent p n accs = .err := by
  rcases h with ⟨rfl, hy⟩ | ⟨rfl, hy⟩ | ⟨rfl, hy⟩ | ⟨rfl, hy⟩
  · rw [loadEntity, if_pos rfl, hy]
  · rw [loadEntity, if_neg (by decide), if_pos rfl, hy]
  · rw [loadEntity, if_neg (by decide), if_neg (by decide), if_pos rfl, hy]
  · rw [loadEntity, if_neg (by decide), if_neg (by decide), if_neg (by decide),
      if_pos rfl, hy]

theorem loadEntity_ok_of_not_fails {env : LoadEnv} {fp ent : List Char}
    (acct p n : List Char) (accs : List (List Char × AccountData))
    (hk : ent ∈ typeKeys) (h : ¬ entityYamlFails env fp ent) :
    ∃ accs3, loadEntity env fp acct ent p n accs = .ok accs3 := by
  simp only [typeKeys, List.mem_cons, List.not_mem_nil, or_false] at hk
  rcases hk with rfl | rfl | rfl | rfl
  · rcases hy : env.userYaml fp with _ | u
    · exact absurd (Or.inl ⟨rfl, hy⟩) h
    · exact ⟨_, by rw [loadEntity, if_pos rfl, hy]⟩
  · rcases hy : env.groupYaml fp with _ | g
    · exact absurd (Or.inr (Or.inl ⟨rfl, hy⟩)) h
    · exact ⟨_, by rw [loadEntity, if_neg (by decide), if_pos rfl, hy]⟩
  · rcases hy : env.policyYaml fp with _ | pl
    · exact absurd (Or.inr (Or.inr (Or.inr ⟨rfl, hy⟩))) h
    · exact ⟨_, by rw [loadEntity, if_neg (by decide), if_neg (by decide),
        if_neg (by decide), if_pos rfl, hy]⟩
  · rcases hy : env.roleYaml fp with _ | rl
    · exact absurd (Or.inr (Or.inr (Or.inl ⟨rfl, hy⟩))) h
    · exact ⟨_, by rw [loadEntity, if_neg (by decide), if_neg (by decide),
        if_pos rfl, hy]⟩

theorem getOrCreate_isSome {key : List Char} (accs : List (List Char × AccountData))
    (h : (newAccountFromString key).isSome = true) :
    ∃ accs2, getOrCreate accs key = some accs2 := by
  rw [getOrCreate]
  split
  · exact ⟨accs, rfl⟩
  · rcases hn : newAccountFromString key with _ | a
    · rw [hn] at h; exact absurd h (by simp)
    · exact ⟨_, by rw [newAccountData, hn]; rfl⟩

theorem loadLoop_failfast (env : LoadEnv) : ∀ (files : List (List Char))
    (accs : List (List Char × AccountData)),
    (∀ fp ∈ files, ∀ q, parsePath fp = some q → (newAccountFromString q.1).isSome = true) →
    (∃ fp ∈ files, ∃ q, parsePath fp = some q ∧ entityYamlFails env fp q.2.1) →
    (loadLoop env files accs).1 = .err := by
  intro files
  induction files with
  | nil =>
    intro accs _ hbad
    obtain ⟨fp, hfp, _⟩ := hbad
    exact absurd hfp (List.not_mem_nil fp)
  | cons fp rest ih =>
    intro accs hacc hbad
    rcases hp : parsePath fp with _ | q
    · rw [loadLoop_cons_none rest accs hp]
      refine ih accs (fun f hf => hacc f (List.mem_cons_of_mem fp hf)) ?_
      obtain ⟨f, hf, qf, hqf, hfail⟩ := hbad
      rcases List.mem_cons.mp hf with rfl | hf'
      · rw [hp] at hqf; exact absurd hqf (by simp)
      · exact ⟨f, hf', qf, hqf, hfail⟩
    · obtain ⟨accs2, hg⟩ :=
        getOrCreate_isSome accs (hacc fp (List.mem_cons_self fp rest) q hp)
      rcases Classical.em (entityYamlFails env fp q.2.1) with hfail | hok
      · rw [loadLoop_cons_err rest hp hg (loadEntity_err_of_fails q.1 q.2.2.1 q.2.2.2 accs2 hfail)]
      · obtain ⟨accs3, hl⟩ :=
          loadEntity_ok_of_not_fails q.1 q.2.2.1 q.2.2.2 accs2 (parse_ent_key hp) hok
        rw [loadLoop_cons_ok rest hp hg hl]
        refine ih accs3 (fun f hf => hacc f (List.mem_cons_of_mem fp hf)) ?_
        obtain ⟨f, hf, qf, hqf, hfail⟩ := hbad
        rcases List.mem_cons.mp hf with rfl | hf'
        · rw [hp] at hqf
          have hq := Option.some.inj hqf
          rw [← hq] at hfail
          exact absurd hfail hok
        · exact ⟨f, hf', qf, hqf, hfail⟩

/-- Claim C6, counterexample to the fail-fast claim as stated: the root
holding the single file `x/user/bob.yaml`, which matches the pattern and
whose contents cannot be deserialized, does not make `Load` return an
error: the account group `x` fails to parse inside `NewAccountData`, so
`Load` panics (aborting the process) before even attempting the read, and
no error is returned. -/
theorem load_failfast_counterexample :
    parsePath (cs (r"x/user/bob.yaml"))
      = some (cs (r"x"), cs (r"user"), cs (r"/"), cs (r"bob"))
    ∧ LoadEnv.userYaml ⟨fun _ => none, fun _ => none, fun _ => none, fun _ => none⟩
        (cs (r"x/user/bob.yaml")) = none
    ∧ (load ⟨fun _ => none, fun _ => none, fun _ => none, fun _ => none⟩
        [cs (r"x/user/bob.yaml")]).1 = GoLoad.panicked
    ∧ GoLoad.panicked ≠ GoLoad.ret none true :=
  ⟨by decide, rfl, rfl, fun h => GoLoad.noConfusion h⟩

/-- Claim C6 as amended: for every walk result containing a matched file
whose contents cannot be read or deserialized into the resource type of its
entity capture, `Load` aborts and returns the error together with a nil
(not partially populated) account slice — provided the account group of
every matched file parses as an account string; otherwise `Load` panics in
`NewAccountData` instead of returning an error (see the counterexample). -/
theorem load_failfast (env : LoadEnv) (files : List (List Char))
    (hacc : ∀ fp ∈ files, ∀ q, parsePath fp = some q →
      (newAccountFromString q.1).isSome = true)
    (hbad : ∃ fp ∈ files, ∃ q, parsePath fp = some q ∧ entityYamlFails env fp q.2.1) :
    (load env files).1 = GoLoad.ret none true := by
  have h := loadLoop_failfast env files [] hacc hbad
  rw [load]
  rcases hll : loadLoop env files [] with ⟨r, sk⟩
  rw [hll] at h
  simp only [] at h
  subst h
  rfl

theorem load_failfast_witness :
    (load ⟨fun _ => none, fun _ => none, fun _ => none, fun _ => none⟩
        [cs (r"123/user/bob.yaml")]).1 = GoLoad.ret none true :=
  load_failfast ⟨fun _ => none, fun _ => none, fun _ => none, fun _ => none⟩
    [cs (r"123/user/bob.yaml")]
    (by
      intro fp hfp q hq
      obtain rfl := List.mem_singleton.mp hfp
      have h0 : parsePath (cs (r"123/user/bob.yaml"))
          = some (cs (r"123"), cs (r"user"), cs (r"/"), cs (r"bob")) := by decide
      rw [h0] at hq
      have h1 := Option.some.inj hq
      rw [← h1]
      decide)
    ⟨cs (r"123/user/bob.yaml"), List.mem_cons_self _ _,
      (cs (r"123"), cs (r"user"), cs (r"/"), cs (r"bob")), by decide,
      Or.inl ⟨rfl, rfl⟩⟩

/-! ### Claim C9 -/

/-- Top-level keys of the yaml body `yaml.Marshal` emits for a `User`, read
off the struct tags (part_001 lines 105-109): `Name` and `Path` carry the
tag `-` and are never emitted; the three remaining fields carry `omitempty`
and are emitted exactly when nonempty. -/
def userYamlKeys (u : User) : List (List Char) :=
  (if u.Groups.isEmpty then [] else [cs (r"Groups")]) ++
  (if u.InlinePolicies.isEmpty then [] else [cs (r"InlinePolicies")]) ++
  (if u.Policies.isEmpty then [] else [cs (r"Policies")])

/-- Top-level yaml keys for a `Group` (tags at part_001 lines 125-128). -/
def groupYamlKeys (g : Group) : List (List Char) :=
  (if g.InlinePolicies.isEmpty then [] else [cs (r"InlinePolicies")]) ++
  (if g.Policies.isEmpty then [] else [cs (r"Policies")])

/-- Top-level yaml keys for a `Role` (tags at part_001 lines 167-171):
`AssumeRolePolicyDocument` has no `omitempty` and is always emitted. -/
def roleYamlKeys (rl : Role) : List (List Char) :=
  cs (r"AssumeRolePolicyDocument") ::
    ((if rl.InlinePolicies.isEmpty then [] else [cs (r"InlinePolicies")]) ++
     (if rl.Policies.isEmpty then [] else [cs (r"Policies")]))

/-- Top-level yaml keys for a `Policy` (tags at part_001 lines 149-151). -/
def policyYamlKeys (_ : Policy) : List (List Char) := [cs (r"Policy")]

/-- The (name, path) pairs of the resources of one kind held by an
`AccountData`, keyed by the entity capture string of that kind. -/
def resourcePairs (ent : List Char) (ad : AccountData) : List (List Char × List Char) :=
  if ent = cs (r"user") then ad.Users.map (fun u => (u.Name, u.Path))
  else if ent = cs (r"group") then ad.Groups.map (fun g => (g.Name, g.Path))
  else if ent = cs (r"role") then ad.Roles.map (fun rl => (rl.Name, rl.Path))
  else if ent = cs (r"policy") then ad.Policies.map (fun p => (p.Name, p.Path))
  else []

theorem pairs_empty (ent : List Char) (a : Account) :
    resourcePairs ent ⟨a, [], [], [], []⟩ = [] := by
  rw [resourcePairs]
  split_ifs <;> rfl

theorem pairs_getOrCreate {accs : List (List Char × AccountData)} {key : List Char}
    {accs2 : List (List Char × AccountData)} {e : List Char × AccountData}
    {ent : List Char} {pr : List Char × List Char}
    (hg : getOrCreate accs key = some accs2) (he : e ∈ accs2)
    (hpr : pr ∈ resourcePairs ent e.2) :
    ∃ e0 ∈ accs, pr ∈ resourcePairs ent e0.2 := by
  rw [getOrCreate] at hg
  split at hg
  · obtain rfl := Option.some.inj hg
    exact ⟨e, he, hpr⟩
  · rcases hn : newAccountFromString key with _ | a
    · rw [newAccountData, hn] at hg
      exact absurd hg (by simp)
    · rw [newAccountData, hn] at hg
      obtain rfl := Option.some.inj hg
      rcases List.mem_append.mp he with he' | he'
      · exact ⟨e, he', hpr⟩
      · rcases List.mem_cons.mp he' with he2 | he2
        · rw [he2] at hpr
          rw [pairs_empty] at hpr
          exact absurd hpr (List.not_mem_nil pr)
        · exact absurd he2 (List.not_mem_nil e)

theorem pairs_addUserTo {accs : List (List Char × AccountData)} {key : List Char}
    {u : User} {e : List Char × AccountData} {ent : List Char} {pr : List Char × List Char}
    (he : e ∈ addUserTo accs key u) (hpr : pr ∈ resourcePairs ent e.2) :
    (∃ e0 ∈ accs, pr ∈ resourcePairs ent e0.2)
    ∨ (ent = cs (r"user") ∧ pr = (u.Name, u.Path)) := by
  obtain ⟨e0, he0, hf⟩ := List.mem_map.mp he
  by_cases hk : e0.1 = key
  · rw [if_pos hk] at hf
    rw [← hf] at hpr
    rw [resourcePairs] at hpr
    by_cases hu : ent = cs (r"user")
    · rw [if_pos hu] at hpr
      simp only [List.map_append, List.map_cons, List.map_nil] at hpr
      rcases List.mem_append.mp hpr with hpr' | hpr'
      · refine Or.inl ⟨e0, he0, ?_⟩
        rw [resourcePairs, if_pos hu]
        exact hpr'
      · rcases List.mem_cons.mp hpr' with hpr2 | hpr2
        · exact Or.inr ⟨hu, hpr2⟩
        · exact absurd hpr2 (List.not_mem_nil pr)
    · rw [if_neg hu] at hpr
      refine Or.inl ⟨e0, he0, ?_⟩
      rw [resourcePairs, if_neg hu]
      exact hpr
  · rw [if_neg hk] at hf
    rw [← hf] at hpr
    exact Or.inl ⟨e0, he0, hpr⟩

theorem pairs_addGroupTo {accs : List (List Char × AccountData)} {key : List Char}
    {g : Group} {e : List Char × AccountData} {ent : List Char} {pr : List Char × List Char}
    (he : e ∈ addGroupTo accs key g) (hpr : pr ∈ resourcePairs ent e.2) :
    (∃ e0 ∈ accs, pr ∈ resourcePairs ent e0.2)
    ∨ (ent = cs (r"group") ∧ pr = (g.Name, g.Path)) := by
  obtain ⟨e0, he0, hf⟩ := List.mem_map.mp he
  by_cases hk : e0.1 = key
  · rw [if_pos hk] at hf
    rw [← hf] at hpr
    rw [resourcePairs] at hpr
    by_cases hg2 : ent = cs (r"group")
    · have hu : ¬ ent = cs (r"user") := by rw [hg2]; decide
      rw [if_neg hu, if_pos hg2] at hpr
      simp only [List.map_append, List.map_cons, List.map_nil] at hpr
      rcases List.mem_append.mp hpr with hpr' | hpr'
      · refine Or.inl ⟨e0, he0, ?_⟩
        rw [resourcePairs, if_neg hu, if_pos hg2]
        exact hpr'
      · rcases List.mem_cons.mp hpr' with hpr2 | hpr2
        · exact Or.inr ⟨hg2, hpr2⟩
        · exact absurd hpr2 (List.not_mem_nil pr)
    · refine Or.inl ⟨e0, he0, ?_⟩
      rw [resourcePairs]
      by_cases hu : ent = cs (r"user")
      · rw [if_pos hu] at hpr ⊢
        exact hpr
      · rw [if_neg hu, if_neg hg2] at hpr ⊢
        exact hpr
  · rw [if_neg hk] at hf
    rw [← hf] at hpr
    exact Or.inl ⟨e0, he0, hpr⟩

theorem pairs_addRoleTo {accs : List (List Char × AccountData)} {key : List Char}
    {rl : Role} {e : List Char × AccountData} {ent : List Char} {pr : List Char × List Char}
    (he : e ∈ addRoleTo accs key rl) (hpr : pr ∈ resourcePairs ent e.2) :
    (∃ e0 ∈ accs, pr ∈ resourcePairs ent e0.2)
    ∨ (ent = cs (r"role") ∧ pr = (rl.Name, rl.Path)) := by
  obtain ⟨e0, he0, hf⟩ := List.mem_map.mp he
  by_cases hk : e0.1 = key
  · rw [if_pos hk] at hf
    rw [← hf] at hpr
    rw [resourcePairs] at hpr
    by_cases hr : ent = cs (r"role")
    · have hu : ¬ ent = cs (r"user") := by rw [hr]; decide
      have hg2 : ¬ ent = cs (r"group") := by rw [hr]; decide
      rw [if_neg hu, if_neg hg2, if_pos hr] at hpr
      simp only [List.map_append, List.map_cons, List.map_nil] at hpr
      rcases List.mem_append.mp hpr with hpr' | hpr'
      · refine Or.inl ⟨e0, he0, ?_⟩
        rw [resourcePairs, if_neg hu, if_neg hg2, if_pos hr]
        exact hpr'
      · rcases List.mem_cons.mp hpr' with hpr2 | hpr2
        · exact Or.inr ⟨hr, hpr2⟩
        · exact absurd hpr2 (List.not_mem_nil pr)
    · refine Or.inl ⟨e0, he0, ?_⟩
      rw [resourcePairs]
      by_cases hu : ent = cs (r"user")
      · rw [if_pos hu] at hpr ⊢
        exact hpr
      · by_cases hg2 : ent = cs (r"group")
        · rw [if_neg hu, if_pos hg2] at hpr ⊢
          exact hpr
        · rw [if_neg hu, if_neg hg2, if_neg hr] at hpr ⊢
          exact hpr
  · rw [if_neg hk] at hf
    rw [← hf] at hpr
    exact Or.inl ⟨e0, he0, hpr⟩

theorem pairs_addPolicyTo {accs : List (List Char × AccountData)} {key : List Char}
    {pl : Policy} {e : List Char × AccountData} {ent : List Char} {pr : List Char × List Char}
    (he : e ∈ addPolicyTo accs key pl) (hpr : pr ∈ resourcePairs ent e.2) :
    (∃ e0 ∈ accs, pr ∈ resourcePairs ent e0.2)
    ∨ (ent = cs (r"policy") ∧ pr = (pl.Name, pl.Path)) := by
  obtain ⟨e0, he0, hf⟩ := List.mem_map.mp he
  by_cases hk : e0.1 = key
  · rw [if_pos hk] at hf
    rw [← hf] at hpr
    rw [resourcePairs] at hpr
    by_cases hp2 : ent = cs (r"policy")
    · have hu : ¬ ent = cs (r"user") := by rw [hp2]; decide
      have hg2 : ¬ ent = cs (r"group") := by rw [hp2]; decide
      have hr : ¬ ent = cs (r"role") := by rw [hp2]; decide
      rw [if_neg hu, if_neg hg2, if_neg hr, if_pos hp2] at hpr
      simp only [List.map_append, List.map_cons, List.map_nil] at hpr
      rcases List.mem_append.mp hpr with hpr' | hpr'
      · refine Or.inl ⟨e0, he0, ?_⟩
        rw [resourcePairs, if_neg hu, if_neg hg2, if_neg hr, if_pos hp2]
        exact hpr'
      · rcases List.mem_cons.mp hpr' with hpr2 | hpr2
        · exact Or.inr ⟨hp2, hpr2⟩
        · exact absurd hpr2 (List.not_mem_nil pr)
    · refine Or.inl ⟨e0, he0, ?_⟩
      rw [resourcePairs]
      by_cases hu : ent = cs (r"user")
      · rw [if_pos hu] at hpr ⊢
        exact hpr
      · by_cases hg2 : ent = cs (r"group")
        · rw [if_neg hu, if_pos hg2] at hpr ⊢
          exact hpr
        · by_cases hr : ent = cs (r"role")
          · rw [if_neg hu, if_neg hg2, if_pos hr] at hpr ⊢
            exact hpr
          · rw [if_neg hu, if_neg hg2, if_neg hr, if_neg hp2] at hpr ⊢
            exact hpr
  · rw [if_neg hk] at hf
    rw [← hf] at hpr
    exact Or.inl ⟨e0, he0, hpr⟩

theorem pairs_loadEntity {env : LoadEnv} {fp acct ent p n : List Char}
    {accs2 accs3 : List (List Char × AccountData)} {e : List Char × AccountData}
    {ent2 : List Char} {pr : List Char × List Char}
    (hl : loadEntity env fp acct ent p n accs2 = .ok accs3) (he : e ∈ accs3)
    (hpr : pr ∈ resourcePairs ent2 e.2) :
    (∃ e0 ∈ accs2, pr ∈ resourcePairs ent2 e0.2) ∨ (ent2 = ent ∧ pr = (n, p)) := by
  rw [loadEntity] at hl
  split_ifs at hl with h1 h2 h3 h4
  · rcases hy : env.userYaml fp with _ | u
    · rw [hy] at hl; exact absurd hl (by simp)
    · rw [hy] at hl
      simp only [StepRes.ok.injEq] at hl
      subst hl
      rcases pairs_addUserTo he hpr with hleft | ⟨hent, hpr2⟩
      · exact Or.inl hleft
      · exact Or.inr ⟨by rw [hent, h1], hpr2⟩
  · rcases hy : env.groupYaml fp with _ | g
    · rw [hy] at hl; exact absurd hl (by simp)
    · rw [hy] at hl
      simp only [StepRes.ok.injEq] at hl
      subst hl
      rcases pairs_addGroupTo he hpr with hleft | ⟨hent, hpr2⟩
      · exact Or.inl hleft
      · exact Or.inr ⟨by rw [hent, h2], hpr2⟩
  · rcases hy : env.roleYaml fp with _ | rl
    · rw [hy] at hl; exact absurd hl (by simp)
    · rw [hy] at hl
      simp only [StepRes.ok.injEq] at hl
      subst hl
      rcases pairs_addRoleTo he hpr with hleft | ⟨hent, hpr2⟩
      · exact Or.inl hleft
      · exact Or.inr ⟨by rw [hent, h3], hpr2⟩
  · rcases hy : env.policyYaml fp with _ | pl
    · rw [hy] at hl; exact absurd hl (by simp)
    · rw [hy] at hl
      simp only [StepRes.ok.injEq] at hl
      subst hl
      rcases pairs_addPolicyTo he hpr with hleft | ⟨hent, hpr2⟩
      · exact Or.inl hleft
      · exact Or.inr ⟨by rw [hent, h4], hpr2⟩

theorem loadLoop_pairs (env : LoadEnv) : ∀ (files : List (List Char))
    (accs accsf : List (List Char × AccountData)) (sk : List (List Char)),
    loadLoop env files accs = (.ok accsf, sk) →
    ∀ e ∈ accsf, ∀ (ent : List Char) (pr : List Char × List Char),
      pr ∈ resourcePairs ent e.2 →
      (∃ e0 ∈ accs, pr ∈ resourcePairs ent e0.2)
      ∨ (∃ fp ∈ files, ∃ acct, parsePath fp = some (acct, ent, pr.2, pr.1)) := by
  intro files
  induction files with
  | nil =>
    intro accs accsf sk h e he ent pr hpr
    rw [loadLoop] at h
    simp only [Prod.mk.injEq, StepRes.ok.injEq] at h
    rw [← h.1] at he
    exact Or.inl ⟨e, he, hpr⟩
  | cons fp rest ih =>
    intro accs accsf sk h e he ent pr hpr
    rcases hp : parsePath fp with _ | q
    · rw [loadLoop_cons_none rest accs hp] at h
      rcases hll : loadLoop env rest accs with ⟨r, sk2⟩
      rw [hll] at h
      simp only [Prod.mk.injEq] at h
      rcases h with ⟨h1, _⟩
      rcases r with accsf2 | _ | _
      · simp only [StepRes.ok.injEq] at h1
        subst h1
        rcases ih accs _ sk2 hll e he ent pr hpr with hleft | ⟨f, hf, acct, hq⟩
        · exact Or.inl hleft
        · exact Or.inr ⟨f, List.mem_cons_of_mem fp hf, acct, hq⟩
      · exact absurd h1 (by simp)
      · exact absurd h1 (by simp)
    · rcases hg : getOrCreate accs q.1 with _ | accs2
      · rw [loadLoop_cons_nacct rest hp hg] at h
        simp only [Prod.mk.injEq] at h
        exact absurd h.1 (by simp)
      · rcases hl : loadEntity env fp q.1 q.2.1 q.2.2.1 q.2.2.2 accs2 with accs3 | _ | _
        · rw [loadLoop_cons_ok rest hp hg hl] at h
          rcases ih accs3 accsf sk h e he ent pr hpr with hleft | ⟨f, hf, acct, hq⟩
          · obtain ⟨e0, he0, hpr0⟩ := hleft
            rcases pairs_loadEntity hl he0 hpr0 with hleft2 | ⟨hent, hpr2⟩
            · obtain ⟨e1, he1, hpr1⟩ := hleft2
              exact Or.inl (pairs_getOrCreate hg he1 hpr1)
            · refine Or.inr ⟨fp, List.mem_cons_self fp rest, q.1, ?_⟩
              rw [hp, hent, hpr2]
          · exact Or.inr ⟨f, List.mem_cons_of_mem fp hf, acct, hq⟩
        · rw [loadLoop_cons_err rest hp hg hl] at h
          simp only [Prod.mk.injEq] at h
          exact absurd h.1 (by simp)
        · rw [loadLoop_cons_epanic rest hp hg hl] at h
          simp only [Prod.mk.injEq] at h
          exact absurd h.1 (by simp)

/-- Claim C9: path is the source of truth for resource identity.  First,
the serialized file body of every resource kind contains no `Name` and no
`Path` field (the yaml tag on both is `-`).  Second, every resource in the
account data produced by a successful `Load` carries exactly the name and
path captured from some walked file's location by the path pattern,
regardless of the file's contents (the unmarshalled fields are overwritten
from the captures). -/
theorem identity_from_path :
    (∀ u : User, cs (r"Name") ∉ userYamlKeys u ∧ cs (r"Path") ∉ userYamlKeys u)
    ∧ (∀ g : Group, cs (r"Name") ∉ groupYamlKeys g ∧ cs (r"Path") ∉ groupYamlKeys g)
    ∧ (∀ rl : Role, cs (r"Name") ∉ roleYamlKeys rl ∧ cs (r"Path") ∉ roleYamlKeys rl)
    ∧ (∀ p : Policy, cs (r"Name") ∉ policyYamlKeys p ∧ cs (r"Path") ∉ policyYamlKeys p)
    ∧ (∀ (env : LoadEnv) (files : List (List Char)) (ads : List AccountData)
          (er : Bool) (sk : List (List Char)),
        load env files = (GoLoad.ret (some ads) er, sk) →
        ∀ ad ∈ ads, ∀ (ent : List Char) (pr : List Char × List Char),
          pr ∈ resourcePairs ent ad →
          ∃ fp ∈ files, ∃ acct, parsePath fp = some (acct, ent, pr.2, pr.1)) := by
  refine ⟨?_, ?_, ?_, ?_, ?_⟩
  · intro u
    constructor
    · rw [userYamlKeys]; split_ifs <;> decide
    · rw [userYamlKeys]; split_ifs <;> decide
  · intro g
    constructor
    · rw [groupYamlKeys]; split_ifs <;> decide
    · rw [groupYamlKeys]; split_ifs <;> decide
  · intro rl
    constructor
    · rw [roleYamlKeys]; split_ifs <;> decide
    · rw [roleYamlKeys]; split_ifs <;> decide
  · intro p
    constructor
    · rw [policyYamlKeys]; decide
    · rw [policyYamlKeys]; decide
  · intro env files ads er sk h ad had ent pr hpr
    rw [load] at h
    rcases hll : loadLoop env files [] with ⟨r, sk2⟩
    rw [hll] at h
    rcases r with accsf | _ | _
    · simp only [Prod.mk.injEq, GoLoad.ret.injEq, Option.some.injEq] at h
      obtain ⟨⟨hads, _⟩, _⟩ := h
      rw [← hads] at had
      obtain ⟨e, he, hesnd⟩ := List.mem_map.mp had
      rw [← hesnd] at hpr
      rcases loadLoop_pairs env files [] accsf sk2 hll e he ent pr hpr with hleft | hright
      · obtain ⟨e0, he0, _⟩ := hleft
        exact absurd he0 (List.not_mem_nil e0)
      · exact hright
    · simp only [Prod.mk.injEq, GoLoad.ret.injEq] at h
      exact absurd h.1.1 (by simp)
    · simp only [Prod.mk.injEq] at h
      exact absurd h.1 (by simp)

theorem identity_from_path_witness :
    (cs (r"Name") ∉ userYamlKeys ⟨cs (r"bob"), cs (r"/"), [], [], [cs (r"ReadOnly")]⟩
      ∧ cs (r"Path") ∉ userYamlKeys ⟨cs (r"bob"), cs (r"/"), [], [], [cs (r"ReadOnly")]⟩)
    ∧ ∃ fp ∈ [cs (r"123/user/bob.yaml")], ∃ acct,
        parsePath fp = some (acct, cs (r"user"), cs (r"/"), cs (r"bob")) :=
  ⟨identity_from_path.1 ⟨cs (r"bob"), cs (r"/"), [], [], [cs (r"ReadOnly")]⟩,
   identity_from_path.2.2.2.2
     ⟨fun _ => some ⟨[], [], [], [], []⟩, fun _ => none, fun _ => none, fun _ => none⟩
     [cs (r"123/user/bob.yaml")]
     [⟨⟨cs (r"123"), []⟩, [⟨cs (r"bob"), cs (r"/"), [], [], []⟩], [], [], []⟩]
     false [] rfl
     ⟨⟨cs (r"123"), []⟩, [⟨cs (r"bob"), cs (r"/"), [], [], []⟩], [], [], []⟩
     (List.mem_cons_self _ _)
     (cs (r"user")) (cs (r"bob"), cs (r"/"))
     (by decide)⟩

/-! ## File-tree dumper (part_000 lines 136-262)

The destination tree under `f.Dir` is modelled as an association of
relative paths to file bodies.  `writeYamlFile` creates parent directories
and writes the file, overwriting any previous body at that path;
`os.RemoveAll(destDir)` deletes every file at or below
`destDir = <canonical-account-string>`.  `filepath.Join` on the clean
relative paths produced by the template is concatenation.  Write errors are
environmental IO failures outside the modelled state and are not modelled;
the claim describes the state after a completed dump. -/

/-- Contents of a file in the destination tree: a serialized resource, or a
foreign (stray) file. -/
inductive FileBody where
  | user (u : User)
  | group (g : Group)
  | role (rl : Role)
  | policy (p : Policy)
  | blob (data : List Char)

/-- The destination tree: relative path to body. -/
abbrev Fs := List (List Char × FileBody)

/-- Go `writeYamlFile` (part_000 lines 245-262): overwrite-or-create. -/
def writeFile (fs : Fs) (p : List Char) (b : FileBody) : Fs :=
  fs.filter (fun e => !(e.1 == p)) ++ [(p, b)]

/-- Is `p` the directory `dir` itself or inside it. -/
def underDir (dir p : List Char) : Bool := p == dir || (dir ++ ['/']).isPrefixOf p

/-- Go `os.RemoveAll(destDir)` (part_000 line 141). -/
def removeAll (fs : Fs) (dir : List Char) : Fs :=
  fs.filter (fun e => !(underDir dir e.1))

/-- The write phase of `Dump` (part_000 lines 146-168): users, then
policies, then groups, then roles, each via `renderPath` of the template. -/
def dumpWrites (fs : Fs) (acct : List Char) (ad : AccountData) : Fs :=
  ad.Roles.foldl
    (fun fsa rl => writeFile fsa (renderPath acct (cs (r"role")) rl.Path rl.Name) (.role rl))
    (ad.Groups.foldl
      (fun fsa g => writeFile fsa (renderPath acct (cs (r"group")) g.Path g.Name) (.group g))
      (ad.Policies.foldl
        (fun fsa p =>
          writeFile fsa (renderPath acct (cs (r"policy")) p.Path p.Name) (.policy p))
        (ad.Users.foldl
          (fun fsa u =>
            writeFile fsa (renderPath acct (cs (r"user")) u.Path u.Name) (.user u))
          fs)))

/-- Go `YamlLoadDumper.Dump` (part_000 lines 136-171). -/
def dump (fs : Fs) (ad : AccountData) (canDelete : Bool) : Fs :=
  dumpWrites (if canDelete then removeAll fs (accountString ad.Account) else fs)
    (accountString ad.Account) ad

/-- The file paths `Dump` renders for the resources of an `AccountData`. -/
def renderedPaths (ad : AccountData) : List (List Char) :=
  ad.Users.map (fun u => renderPath (accountString ad.Account) (cs (r"user")) u.Path u.Name) ++
  ad.Policies.map
    (fun p => renderPath (accountString ad.Account) (cs (r"policy")) p.Path p.Name) ++
  ad.Groups.map
    (fun g => renderPath (accountString ad.Account) (cs (r"group")) g.Path g.Name) ++
  ad.Roles.map (fun rl => renderPath (accountString ad.Account) (cs (r"role")) rl.Path rl.Name)

/-! ### Generic write-fold lemmas -/

theorem mem_writeFile {fs : Fs} {p : List Char} {b : FileBody} {e : List Char × FileBody}
    (he : e ∈ writeFile fs p b) : e ∈ fs ∨ e = (p, b) := by
  rw [writeFile] at he
  rcases List.mem_append.mp he with he' | he'
  · exact Or.inl (List.mem_of_mem_filter he')
  · rcases List.mem_cons.mp he' with he2 | he2
    · exact Or.inr he2
    · exact absurd he2 (List.not_mem_nil e)

theorem mem_writeFile_of_ne {fs : Fs} {p : List Char} {b : FileBody}
    {e : List Char × FileBody} (he : e ∈ fs) (hne : ¬ e.1 = p) :
    e ∈ writeFile fs p b := by
  rw [writeFile]
  refine List.mem_append.mpr (Or.inl ?_)
  rw [List.mem_filter]
  exact ⟨he, by simp [hne]⟩

theorem writeFile_mem_self (fs : Fs) (p : List Char) (b : FileBody) :
    (p, b) ∈ writeFile fs p b := by
  rw [writeFile]
  exact List.mem_append.mpr (Or.inr (List.mem_cons_self _ _))

theorem writeFile_keeps {fs : Fs} {q p : List Char} {b : FileBody}
    (h : ∃ b0, (q, b0) ∈ fs) : ∃ b1, (q, b1) ∈ writeFile fs p b := by
  rcases Decidable.em (q = p) with rfl | hne
  · exact ⟨b, writeFile_mem_self fs q b⟩
  · obtain ⟨b0, hb0⟩ := h
    exact ⟨b0, mem_writeFile_of_ne hb0 hne⟩

theorem foldl_write_sound {α : Type} (pf : α → List Char) (bf : α → FileBody) :
    ∀ (xs : List α) (fs : Fs) (e : List Char × FileBody),
    e ∈ xs.foldl (fun fsa x => writeFile fsa (pf x) (bf x)) fs →
    e ∈ fs ∨ ∃ x ∈ xs, e = (pf x, bf x) := by
  intro xs
  induction xs with
  | nil => intro fs e he; exact Or.inl he
  | cons x xs' ih =>
    intro fs e he
    rw [List.foldl_cons] at he
    rcases ih (writeFile fs (pf x) (bf x)) e he with he' | ⟨x', hx', he2⟩
    · rcases mem_writeFile he' with he2 | he2
      · exact Or.inl he2
      · exact Or.inr ⟨x, List.mem_cons_self x xs', he2⟩
    · exact Or.inr ⟨x', List.mem_cons_of_mem x hx', he2⟩

theorem foldl_write_keeps {α : Type} (pf : α → List Char) (bf : α → FileBody) :
    ∀ (xs : List α) (fs : Fs) (e : List Char × FileBody),
    e ∈ fs → (∀ x ∈ xs, ¬ e.1 = pf x) →
    e ∈ xs.foldl (fun fsa x => writeFile fsa (pf x) (bf x)) fs := by
  intro xs
  induction xs with
  | nil => intro fs e he _; exact he
  | cons x xs' ih =>
    intro fs e he hne
    rw [List.foldl_cons]
    exact ih _ e (mem_writeFile_of_ne he (hne x (List.mem_cons_self x xs')))
      (fun x' hx' => hne x' (List.mem_cons_of_mem x hx'))

theorem foldl_write_keeps_path {α : Type} (pf : α → List Char) (bf : α → FileBody) :
    ∀ (xs : List α) (fs : Fs) (q : List Char),
    (∃ b0, (q, b0) ∈ fs) →
    ∃ b1, (q, b1) ∈ xs.foldl (fun fsa x => writeFile fsa (pf x) (bf x)) fs := by
  intro xs
  induction xs with
  | nil => intro fs q h; exact h
  | cons x xs' ih =>
    intro fs q h
    rw [List.foldl_cons]
    exact ih _ q (writeFile_keeps h)

theorem foldl_write_covers {α : Type} (pf : α → List Char) (bf : α → FileBody) :
    ∀ (xs : List α) (fs : Fs) (x : α), x ∈ xs →
    ∃ b1, (pf x, b1) ∈ xs.foldl (fun fsa x => writeFile fsa (pf x) (bf x)) fs := by
  intro xs
  induction xs with
  | nil => intro fs x hx; exact absurd hx (List.not_mem_nil x)
  | cons x0 xs' ih =>
    intro fs x hx
    rw [List.foldl_cons]
    rcases List.mem_cons.mp hx with rfl | hx'
    · exact foldl_write_keeps_path pf bf xs' _ (pf x) ⟨bf x, writeFile_mem_self _ _ _⟩
    · exact ih _ x hx'

theorem rendered_under (acct k p n : List Char) :
    underDir acct (renderPath acct k p n) = true := by
  rw [underDir, renderPath]
  have h : acct ++ '/' :: (k ++ p ++ n ++ yamlExt)
      = (acct ++ ['/']) ++ (k ++ p ++ n ++ yamlExt) := by simp
  rw [h, isPre_append_self]
  simp

theorem mem_renderedPaths {ad : AccountData} {q : List Char} :
    q ∈ renderedPaths ad ↔
      (∃ u ∈ ad.Users,
        q = renderPath (accountString ad.Account) (cs (r"user")) u.Path u.Name) ∨
      (∃ p ∈ ad.Policies,
        q = renderPath (accountString ad.Account) (cs (r"policy")) p.Path p.Name) ∨
      (∃ g ∈ ad.Groups,
        q = renderPath (accountString ad.Account) (cs (r"group")) g.Path g.Name) ∨
      (∃ rl ∈ ad.Roles,
        q = renderPath (accountString ad.Account) (cs (r"role")) rl.Path rl.Name) := by
  rw [renderedPaths]
  simp only [List.mem_append, List.mem_map]
  constructor
  · rintro (((⟨u, hu, hq⟩ | ⟨p, hp, hq⟩) | ⟨g, hg, hq⟩) | ⟨rl, hrl, hq⟩)
    · exact Or.inl ⟨u, hu, hq.symm⟩
    · exact Or.inr (Or.inl ⟨p, hp, hq.symm⟩)
    · exact Or.inr (Or.inr (Or.inl ⟨g, hg, hq.symm⟩))
    · exact Or.inr (Or.inr (Or.inr ⟨rl, hrl, hq.symm⟩))
  · rintro (⟨u, hu, hq⟩ | ⟨p, hp, hq⟩ | ⟨g, hg, hq⟩ | ⟨rl, hrl, hq⟩)
    · exact Or.inl (Or.inl (Or.inl ⟨u, hu, hq.symm⟩))
    · exact Or.inl (Or.inl (Or.inr ⟨p, hp, hq.symm⟩))
    · exact Or.inl (Or.inr ⟨g, hg, hq.symm⟩)
    · exact Or.inr ⟨rl, hrl, hq.symm⟩

theorem renderedPaths_under {ad : AccountData} {q : List Char}
    (h : q ∈ renderedPaths ad) : underDir (accountString ad.Account) q = true := by
  rcases mem_renderedPaths.mp h with ⟨u, _, hq⟩ | ⟨p, _, hq⟩ | ⟨g, _, hq⟩ | ⟨rl, _, hq⟩
  all_goals rw [hq]; exact rendered_under _ _ _ _

/-- Claim C8: after `Dump` with `canDelete = true`, (1) every file inside
the per-account subtree `destRoot/<canonical-account-string>` is one of the
files rendered from `accountData` — every stray file previously inside the
subtree is gone; (2) every rendered resource file is present; (3) every
file outside the subtree is kept unchanged; and (4) no file outside the
subtree is created, so exactly the per-account subtree is replaced. -/
theorem dump_frame (fs : Fs) (ad : AccountData) :
    (∀ e ∈ dump fs ad true, underDir (accountString ad.Account) e.1 = true →
        e.1 ∈ renderedPaths ad)
    ∧ (∀ q ∈ renderedPaths ad, ∃ b, (q, b) ∈ dump fs ad true)
    ∧ (∀ e ∈ fs, underDir (accountString ad.Account) e.1 = false → e ∈ dump fs ad true)
    ∧ (∀ e ∈ dump fs ad true, underDir (accountString ad.Account) e.1 = false →
        e ∈ fs) := by
  have hbase : ∀ e ∈ removeAll fs (accountString ad.Account),
      e ∈ fs ∧ underDir (accountString ad.Account) e.1 = false := by
    intro e he
    rw [removeAll] at he
    have h1 := List.mem_of_mem_filter he
    have h2 := List.of_mem_filter he
    simp only [Bool.not_eq_true'] at h2
    exact ⟨h1, h2⟩
  have hsound : ∀ e ∈ dump fs ad true,
      e ∈ removeAll fs (accountString ad.Account) ∨ e.1 ∈ renderedPaths ad := by
    intro e he
    rw [dump, if_pos rfl, dumpWrites] at he
    rcases foldl_write_sound _ _ ad.Roles _ e he with he1 | ⟨x, hx, he2⟩
    · rcases foldl_write_sound _ _ ad.Groups _ e he1 with he2 | ⟨x, hx, he2⟩
      · rcases foldl_write_sound _ _ ad.Policies _ e he2 with he3 | ⟨x, hx, he3⟩
        · rcases foldl_write_sound _ _ ad.Users _ e he3 with he4 | ⟨x, hx, he4⟩
          · exact Or.inl he4
          · refine Or.inr (mem_renderedPaths.mpr (Or.inl ⟨x, hx, ?_⟩))
            rw [he4]
        · refine Or.inr (mem_renderedPaths.mpr (Or.inr (Or.inl ⟨x, hx, ?_⟩)))
          rw [he3]
      · refine Or.inr (mem_renderedPaths.mpr (Or.inr (Or.inr (Or.inl ⟨x, hx, ?_⟩))))
        rw [he2]
    · refine Or.inr (mem_renderedPaths.mpr (Or.inr (Or.inr (Or.inr ⟨x, hx, ?_⟩))))
      rw [he2]
  refine ⟨?_, ?_, ?_, ?_⟩
  · intro e he hu
    rcases hsound e he with he' | he'
    · rw [(hbase e he').2] at hu
      exact absurd hu (by simp)
    · exact he'
  · intro q hq
    rw [dump, if_pos rfl, dumpWrites]
    rcases mem_renderedPaths.mp hq with ⟨u, hu, hq2⟩ | ⟨p, hp, hq2⟩ | ⟨g, hg, hq2⟩
      | ⟨rl, hrl, hq2⟩
    · refine foldl_write_keeps_path _ _ ad.Roles _ q
        (foldl_write_keeps_path _ _ ad.Groups _ q
          (foldl_write_keeps_path _ _ ad.Policies _ q ?_))
      rw [hq2]
      exact foldl_write_covers _ _ ad.Users _ u hu
    · refine foldl_write_keeps_path _ _ ad.Roles _ q
        (foldl_write_keeps_path _ _ ad.Groups _ q ?_)
      rw [hq2]
      exact foldl_write_covers _ _ ad.Policies _ p hp
    · refine foldl_write_keeps_path _ _ ad.Roles _ q ?_
      rw [hq2]
      exact foldl_write_covers _ _ ad.Groups _ g hg
    · rw [hq2]
      exact foldl_write_covers _ _ ad.Roles _ rl hrl
  · intro e he hu
    rw [dump, if_pos rfl, dumpWrites]
    have hne : ∀ q ∈ renderedPaths ad, ¬ e.1 = q := by
      intro q hq he2
      rw [he2] at hu
      rw [renderedPaths_under hq] at hu
      exact absurd hu (by simp)
    have h0 : e ∈ removeAll fs (accountString ad.Account) := by
      rw [removeAll, List.mem_filter]
      exact ⟨he, by simp [hu]⟩
    refine foldl_write_keeps _ _ ad.Roles _ e ?_ ?_
    · refine foldl_write_keeps _ _ ad.Groups _ e ?_ ?_
      · refine foldl_write_keeps _ _ ad.Policies _ e ?_ ?_
        · refine foldl_write_keeps _ _ ad.Users _ e h0 ?_
          intro x hx
          exact hne _ (mem_renderedPaths.mpr (Or.inl ⟨x, hx, rfl⟩))
        · intro x hx
          exact hne _ (mem_renderedPaths.mpr (Or.inr (Or.inl ⟨x, hx, rfl⟩)))
      · intro x hx
        exact hne _ (mem_renderedPaths.mpr (Or.inr (Or.inr (Or.inl ⟨x, hx, rfl⟩))))
    · intro x hx
      exact hne _ (mem_renderedPaths.mpr (Or.inr (Or.inr (Or.inr ⟨x, hx, rfl⟩))))
  · intro e he hu
    rcases hsound e he with he' | he'
    · exact (hbase e he').1
    · rw [renderedPaths_under he'] at hu
      exact absurd hu (by simp)

theorem dump_frame_witness :
    ∃ b, (renderPath (accountString ⟨cs (r"123"), []⟩) (cs (r"user")) (cs (r"/"))
        (cs (r"bob")), b)
      ∈ dump [(cs (r"123/stray.txt"), FileBody.blob (cs (r"junk")))]
          ⟨⟨cs (r"123"), []⟩, [⟨cs (r"bob"), cs (r"/"), [], [], []⟩], [], [], []⟩ true :=
  (dump_frame [(cs (r"123/stray.txt"), FileBody.blob (cs (r"junk")))]
      ⟨⟨cs (r"123"), []⟩, [⟨cs (r"bob"), cs (r"/"), [], [], []⟩], [], [], []⟩).2.1
    (renderPath (accountString ⟨cs (r"123"), []⟩) (cs (r"user")) (cs (r"/")) (cs (r"bob")))
    (by decide)

/-! ## Policy document codec (part_001 lines 16-60)

`Encode` is `url.QueryEscape` applied to the compact `json.Marshal` of the
document, and `NewPolicyDocumentFromEncodedJson` is `url.QueryUnescape`
followed by `json.Unmarshal`.  All four components
(`encoding/json`, `net/url`, and the vendored `yamljsonmap.StringKeyMap`
the document is declared as) live outside this repository's sources.

Modelled from the spec: the document (spec 3, 4.2) is an ordered mapping
from string keys to JSON-compatible values; `Marshal` produces compact
JSON; `Encode` percent-encodes it; decoding reverses both steps and fails
on malformed input.  Go strings are byte sequences, so strings are
modelled as lists of bytes (`Nat` below 256) and the codec below follows
the documented behaviour of the standard JSON string escaping
(quote, backslash, control characters and the HTML-escaped `<`, `>`, `&`
as `\u00XX`) and of query escaping (unreserved bytes kept, space to `+`,
every other byte to uppercase `%XX`).  Numbers are modelled as integers. -/

/-- Uppercase hex digit byte (used by `url.QueryEscape`). -/
def hexUp (d : Nat) : Nat := if d < 10 then 48 + d else 55 + d

/-- Lowercase hex digit byte (used by the JSON `\u00xx` escapes). -/
def hexLo (d : Nat) : Nat := if d < 10 then 48 + d else 87 + d

/-- Value of a hex digit byte, either case. -/
def hexVal (b : Nat) : Option Nat :=
  if 48 ≤ b ∧ b ≤ 57 then some (b - 48)
  else if 65 ≤ b ∧ b ≤ 70 then some (b - 55)
  else if 97 ≤ b ∧ b ≤ 102 then some (b - 87)
  else none

/-- The bytes `url.QueryEscape` leaves unescaped. -/
def isUnreserved (b : Nat) : Bool :=
  (65 ≤ b && b ≤ 90) || (97 ≤ b && b ≤ 122) || (48 ≤ b && b ≤ 57) ||
    b == 45 || b == 95 || b == 46 || b == 126

/-- Modelled from the spec: `url.QueryEscape`. -/
def queryEscape : List Nat → List Nat
  | [] => []
  | b :: rest =>
    (if isUnreserved b then [b]
     else if b = 32 then [43]
     else [37, hexUp (b / 16), hexUp (b % 16)]) ++ queryEscape rest

/-- Two hex digit bytes after a `%`: decoded byte and remainder. -/
def pctVal : List Nat → Option (Nat × List Nat)
  | [] => none
  | [_] => none
  | h1 :: h2 :: rest2 =>
    match hexVal h1 with
    | none => none
    | some v1 =>
      match hexVal h2 with
      | none => none
      | some v2 => some (16 * v1 + v2, rest2)

/-- Modelled from the spec: `url.QueryUnescape` (`none` is its error).
The fuel argument, instantiated with the input length below, only makes
the recursion structural: one unit is spent per decoded byte, and decoding
consumes at least one input byte per step. -/
def quRun : Nat → List Nat → Option (List Nat)
  | 0, _ => none
  | fuel + 1, s =>
    match s with
    | [] => some []
    | b :: rest =>
      if b = 37 then
        match pctVal rest with
        | none => none
        | some vr => (quRun fuel vr.2).map (fun t => vr.1 :: t)
      else if b = 43 then (quRun fuel rest).map (fun t => 32 :: t)
      else (quRun fuel rest).map (fun t => b :: t)

/-- `url.QueryUnescape`. -/
def queryUnescape (s : List Nat) : Option (List Nat) := quRun (s.length + 1) s

theorem hexVal_hexUp {d : Nat} (h : d < 16) : hexVal (hexUp d) = some d := by
  rw [hexUp]
  split_ifs with h1
  · rw [hexVal, if_pos (by omega)]
    exact congrArg some (by omega)
  · rw [hexVal, if_neg (by omega), if_pos (by omega)]
    exact congrArg some (by omega)

theorem hexVal_hexLo {d : Nat} (h : d < 16) : hexVal (hexLo d) = some d := by
  rw [hexLo]
  split_ifs with h1
  · rw [hexVal, if_pos (by omega)]
    exact congrArg some (by omega)
  · rw [hexVal, if_neg (by omega), if_neg (by omega), if_pos (by omega)]
    exact congrArg some (by omega)

theorem pctVal_eq {h1 h2 : Nat} {v1 v2 : Nat} (rest : List Nat)
    (hv1 : hexVal h1 = some v1) (hv2 : hexVal h2 = some v2) :
    pctVal (h1 :: h2 :: rest) = some (16 * v1 + v2, rest) := by
  rw [pctVal]
  simp [hv1, hv2]

theorem quRun_escape : ∀ (bs : List Nat) (fuel : Nat), (∀ b ∈ bs, b < 256) →
    (queryEscape bs).length < fuel → quRun fuel (queryEscape bs) = some bs := by
  intro bs
  induction bs with
  | nil =>
    intro fuel _ hlen
    match fuel, hlen with
    | fuel2 + 1, _ => rfl
  | cons b rest ih =>
    intro fuel h hlen
    have hb : b < 256 := h b (List.mem_cons_self b rest)
    have h2 : ∀ x ∈ rest, x < 256 := fun x hx => h x (List.mem_cons_of_mem b hx)
    rw [queryEscape] at hlen ⊢
    rcases Decidable.em (isUnreserved b = true) with hu | hu
    · rw [if_pos hu] at hlen ⊢
      simp only [List.length_append, List.length_cons, List.length_nil] at hlen
      match fuel, hlen with
      | fuel2 + 1, _ =>
        have h37 : ¬ b = 37 := by
          intro hx; subst hx; exact absurd hu (by decide)
        have h43 : ¬ b = 43 := by
          intro hx; subst hx; exact absurd hu (by decide)
        rw [List.cons_append, List.nil_append, quRun]
        simp only [if_neg h37, if_neg h43]
        rw [ih fuel2 h2 (by omega)]
        rfl
    · rw [if_neg hu] at hlen ⊢
      rcases Decidable.em (b = 32) with h32 | h32
      · subst h32
        rw [if_pos rfl] at hlen ⊢
        simp only [List.length_append, List.length_cons, List.length_nil] at hlen
        match fuel, hlen with
        | fuel2 + 1, _ =>
          rw [List.cons_append, List.nil_append, quRun]
          simp only [if_neg (by omega : ¬ (43 : Nat) = 37), if_pos rfl]
          rw [ih fuel2 h2 (by omega)]
          rfl
      · rw [if_neg h32] at hlen ⊢
        simp only [List.length_append, List.length_cons, List.length_nil] at hlen
        match fuel, hlen with
        | fuel2 + 1, _ =>
          rw [List.cons_append, List.cons_append, List.cons_append, List.nil_append, quRun]
          simp only [if_pos rfl]
          rw [pctVal_eq _ (hexVal_hexUp (by omega)) (hexVal_hexUp (by omega))]
          simp only []
          rw [ih fuel2 h2 (by omega)]
          exact congrArg some (by rw [show 16 * (b / 16) + b % 16 = b from by omega])

theorem queryUnescape_escape (bs : List Nat) (h : ∀ b ∈ bs, b < 256) :
    queryUnescape (queryEscape bs) = some bs := by
  rw [queryUnescape]
  exact quRun_escape bs _ h (by omega)

/-! ### Decimal digits -/

/-- Little-endian decimal digit bytes of a natural number. -/
def digitsRev (fuel n : Nat) : List Nat :=
  match fuel with
  | 0 => []
  | fuel2 + 1 => if n < 10 then [48 + n] else (48 + n % 10) :: digitsRev fuel2 (n / 10)

/-- Decimal byte representation of a natural number. -/
def natBytes (n : Nat) : List Nat := (digitsRev (n + 1) n).reverse

/-- Decimal byte representation of an integer (Go `json.Marshal` of an
integer number). -/
def intBytes (i : Int) : List Nat :=
  if i < 0 then 45 :: natBytes i.natAbs else natBytes i.toNat

/-- Greedy digit-run parser accumulating most-significant-first. -/
def parseDigits : List Nat → Nat → Nat × List Nat
  | [], acc => (acc, [])
  | b :: rest, acc =>
    if 48 ≤ b ∧ b ≤ 57 then parseDigits rest (acc * 10 + (b - 48)) else (acc, b :: rest)

/-- Negative-number continuation of `parseNum`, after the minus sign. -/
def parseNumNeg : List Nat → Option (Int × List Nat)
  | [] => none
  | d :: rest2 =>
    if 48 ≤ d ∧ d ≤ 57 then
      some (-(Int.ofNat (parseDigits rest2 (d - 48)).1), (parseDigits rest2 (d - 48)).2)
    else none

/-- JSON number parser (integers; the marshalled documents of the model
contain only integer numbers). -/
def parseNum : List Nat → Option (Int × List Nat)
  | [] => none
  | b :: rest =>
    if b = 45 then parseNumNeg rest
    else if 48 ≤ b ∧ b ≤ 57 then
      some (Int.ofNat (parseDigits rest (b - 48)).1, (parseDigits rest (b - 48)).2)
    else none

/-- A byte list that does not begin with a decimal digit (the delimiter
condition under which a printed number is parsed back exactly). -/
def sepn (l : List Nat) : Prop := ∀ b t, l = b :: t → ¬ (48 ≤ b ∧ b ≤ 57)

theorem digitsRev_spec : ∀ (fuel n : Nat), n < fuel →
    digitsRev fuel n ≠ [] ∧ (∀ b ∈ digitsRev fuel n, 48 ≤ b ∧ b ≤ 57) ∧
      List.foldl (fun a b => a * 10 + (b - 48)) 0 (digitsRev fuel n).reverse = n := by
  intro fuel
  induction fuel with
  | zero => intro n h; omega
  | succ fuel2 ih =>
    intro n h
    rw [digitsRev]
    rcases Decidable.em (n < 10) with h10 | h10
    · rw [if_pos h10]
      refine ⟨by simp, ?_, by simp⟩
      intro b hb
      rcases List.mem_cons.mp hb with rfl | hb'
      · omega
      · exact absurd hb' (List.not_mem_nil b)
    · rw [if_neg h10]
      have hdiv : n / 10 < fuel2 := by
        have := Nat.div_lt_self (by omega : 0 < n) (by omega : 1 < 10)
        omega
      obtain ⟨hne, hall, hval⟩ := ih (n / 10) hdiv
      refine ⟨by simp, ?_, ?_⟩
      · intro b hb
        rcases List.mem_cons.mp hb with rfl | hb'
        · omega
        · exact hall b hb'
      · rw [List.reverse_cons, List.foldl_append, hval]
        simp
        omega

theorem natBytes_spec (n : Nat) :
    natBytes n ≠ [] ∧ (∀ b ∈ natBytes n, 48 ≤ b ∧ b ≤ 57) ∧
      List.foldl (fun a b => a * 10 + (b - 48)) 0 (natBytes n) = n := by
  obtain ⟨hne, hall, hval⟩ := digitsRev_spec (n + 1) n (by omega)
  refine ⟨by simpa [natBytes] using hne, ?_, hval⟩
  intro b hb
  exact hall b (List.mem_reverse.mp (by simpa [natBytes] using hb))

theorem parseDigits_append : ∀ (ds rest : List Nat) (acc : Nat),
    (∀ b ∈ ds, 48 ≤ b ∧ b ≤ 57) → sepn rest →
    parseDigits (ds ++ rest) acc
      = (List.foldl (fun a b => a * 10 + (b - 48)) acc ds, rest) := by
  intro ds
  induction ds with
  | nil =>
    intro rest acc _ hsep
    rw [List.nil_append]
    cases rest with
    | nil => rfl
    | cons b t =>
      rw [parseDigits, if_neg (hsep b t rfl)]
      rfl
  | cons d ds' ih =>
    intro rest acc hall hsep
    rw [List.cons_append, parseDigits, if_pos (hall d (List.mem_cons_self d ds'))]
    rw [ih rest _ (fun b hb => hall b (List.mem_cons_of_mem d hb)) hsep]
    rfl

theorem parseNum_nat (n : Nat) (rest : List Nat) (hsep : sepn rest) :
    parseNum (natBytes n ++ rest) = some (Int.ofNat n, rest) := by
  obtain ⟨hne, hall, hval⟩ := natBytes_spec n
  rcases hbytes : natBytes n with _ | ⟨d, ds⟩
  · exact absurd hbytes hne
  · rw [hbytes] at hall hval
    have hd := hall d (List.mem_cons_self d ds)
    rw [List.cons_append, parseNum, if_neg (by omega), if_pos hd]
    rw [parseDigits_append ds rest _ (fun b hb => hall b (List.mem_cons_of_mem d hb)) hsep]
    simp only [List.foldl_cons, Nat.zero_mul, Nat.zero_add] at hval
    rw [hval]

theorem parseNum_int (i : Int) (rest : List Nat) (hsep : sepn rest) :
    parseNum (intBytes i ++ rest) = some (i, rest) := by
  rcases i with n | n
  · rw [intBytes, if_neg (by rw [Int.ofNat_eq_natCast]; omega)]
    have ht : (Int.ofNat n).toNat = n := rfl
    rw [ht, parseNum_nat n rest hsep]
  · rw [intBytes, if_pos (Int.negSucc_lt_zero n)]
    have ht : (Int.negSucc n).natAbs = n + 1 := rfl
    rw [ht, List.cons_append, parseNum, if_pos rfl]
    obtain ⟨hne, hall, hval⟩ := natBytes_spec (n + 1)
    rcases hbytes : natBytes (n + 1) with _ | ⟨d, ds⟩
    · exact absurd hbytes hne
    · rw [hbytes] at hall hval
      have hd := hall d (List.mem_cons_self d ds)
      rw [List.cons_append, parseNumNeg, if_pos hd]
      rw [parseDigits_append ds rest _ (fun b hb => hall b (List.mem_cons_of_mem d hb)) hsep]
      simp only [List.foldl_cons, Nat.zero_mul, Nat.zero_add] at hval
      rw [hval]
      rfl

/-! ### JSON string escaping (Go `encoding/json`, HTML escaping on) -/

/-- Escape of one string byte as the Go JSON encoder writes it: `\"`, `\\`,
`\n`, `\r`, `\t`; other control bytes and the HTML-sensitive `<`, `>`, `&`
as `\u00xx` with lowercase hex; everything else verbatim. -/
def escByte (b : Nat) : List Nat :=
  if b = 34 then [92, 34]
  else if b = 92 then [92, 92]
  else if b = 10 then [92, 110]
  else if b = 13 then [92, 114]
  else if b = 9 then [92, 116]
  else if b < 32 ∨ b = 60 ∨ b = 62 ∨ b = 38 then
    [92, 117, 48, 48, hexLo (b / 16), hexLo (b % 16)]
  else [b]

/-- Escape of a whole string body. -/
def escBytes : List Nat → List Nat
  | [] => []
  | b :: rest => escByte b ++ escBytes rest

/-- A JSON string literal: quote, escaped body, quote. -/
def quoteBytes (s : List Nat) : List Nat := 34 :: (escBytes s ++ [34])

/-- UTF-8 encoding of a code point (only sub-BMP points arise here). -/
def utf8Bytes (v : Nat) : List Nat :=
  if v < 128 then [v]
  else if v < 2048 then [192 + v / 64, 128 + v % 64]
  else [224 + v / 4096, 128 + v / 64 % 64, 128 + v % 64]

/-! ### JSON printer (`json.Marshal` of a string-keyed map, compact form) -/

mutual
/-- Modelled from the spec: the bytes `json.Marshal` produces for a value
(compact output; strings escaped as `escByte` describes; only integer
numbers occur in the model). -/
def jprintV : Jval → List Nat
  | Jval.null => [110, 117, 108, 108]
  | Jval.boolean true => [116, 114, 117, 101]
  | Jval.boolean false => [102, 97, 108, 115, 101]
  | Jval.num i => intBytes i
  | Jval.str s => quoteBytes s
  | Jval.arr a => 91 :: (jprintA a ++ [93])
  | Jval.obj o => 123 :: (jprintO o ++ [125])
/-- Comma-separated element list of an array body. -/
def jprintA : JArr → List Nat
  | JArr.nil => []
  | JArr.cons v JArr.nil => jprintV v
  | JArr.cons v (JArr.cons w a2) => jprintV v ++ (44 :: jprintA (JArr.cons w a2))
/-- Comma-separated `"key":value` list of an object body. -/
def jprintO : JObj → List Nat
  | JObj.nil => []
  | JObj.cons k v JObj.nil => quoteBytes k ++ (58 :: jprintV v)
  | JObj.cons k v (JObj.cons k2 w o2) =>
    quoteBytes k ++ (58 :: (jprintV v ++ (44 :: jprintO (JObj.cons k2 w o2))))
end

/-! ### JSON parser (`json.Unmarshal` on the compact documents above) -/

/-- Single-character escape codes after a backslash. -/
def escCode (c : Nat) : Option Nat :=
  if c = 34 then some 34
  else if c = 92 then some 92
  else if c = 47 then some 47
  else if c = 98 then some 8
  else if c = 102 then some 12
  else if c = 110 then some 10
  else if c = 114 then some 13
  else if c = 116 then some 9
  else none

/-- Four hex digits after a backslash-u escape: code point and remainder. -/
def unescU : List Nat → Option (Nat × List Nat)
  | h1 :: h2 :: h3 :: h4 :: rest3 =>
    match hexVal h1 with
    | none => none
    | some v1 =>
      match hexVal h2 with
      | none => none
      | some v2 =>
        match hexVal h3 with
        | none => none
        | some v3 =>
          match hexVal h4 with
          | none => none
          | some v4 => some (((v1 * 16 + v2) * 16 + v3) * 16 + v4, rest3)
  | [] => none
  | [_] => none
  | [_, _] => none
  | [_, _, _] => none

/-- The bytes an escape sequence (after the backslash) decodes to, with the
remainder of the input. -/
def escSeq : List Nat → Option (List Nat × List Nat)
  | [] => none
  | c :: rest2 =>
    if c = 117 then
      match unescU rest2 with
      | none => none
      | some vr => some (utf8Bytes vr.1, vr.2)
    else
      match escCode c with
      | none => none
      | some x => some ([x], rest2)

/-- String-body parser, after the opening quote: returns the decoded bytes
and the input after the closing quote.  The fuel argument, instantiated with
the input length by `parseStr`, only makes the recursion structural: each
step consumes at least one input byte. -/
def parseStrF : Nat → List Nat → Option (List Nat × List Nat)
  | 0, _ => none
  | _ + 1, [] => none
  | fuel + 1, b :: rest =>
    if b = 34 then some ([], rest)
    else if b = 92 then
      match escSeq rest with
      | none => none
      | some xr => (parseStrF fuel xr.2).map (fun r => (xr.1 ++ r.1, r.2))
    else if b < 32 then none
    else (parseStrF fuel rest).map (fun r => (b :: r.1, r.2))

/-- String-body parser wrapper. -/
def parseStr (s : List Nat) : Option (List Nat × List Nat) :=
  parseStrF (s.length + 1) s

/-- Strip one expected byte from the front of the input. -/
def stripByte (x : Nat) : List Nat → Option (List Nat)
  | [] => none
  | b :: rest => if b = x then some rest else none

/-- Strip an expected literal from the front of the input. -/
def stripLit (lit s : List Nat) : Option (List Nat) :=
  if lit.isPrefixOf s then some (s.drop lit.length) else none

mutual
/-- Modelled from the spec: `json.Unmarshal` restricted to the compact
documents the printer emits (no interspersed whitespace, integer numbers).
The fuel decreases at each nesting step and is instantiated with the input
length plus one, which the proofs show is always sufficient. -/
def parseV : Nat → List Nat → Option (Jval × List Nat)
  | 0, _ => none
  | _ + 1, [] => none
  | fuel + 1, b :: rest =>
    if b = 110 then (stripLit [117, 108, 108] rest).map (fun r => (Jval.null, r))
    else if b = 116 then (stripLit [114, 117, 101] rest).map (fun r => (Jval.boolean true, r))
    else if b = 102 then (stripLit [97, 108, 115, 101] rest).map (fun r => (Jval.boolean false, r))
    else if b = 34 then (parseStr rest).map (fun r => (Jval.str r.1, r.2))
    else if b = 91 then
      match stripByte 93 rest with
      | some r => some (Jval.arr JArr.nil, r)
      | none => (parseAloop fuel rest).map (fun r => (Jval.arr r.1, r.2))
    else if b = 123 then
      match stripByte 125 rest with
      | some r => some (Jval.obj JObj.nil, r)
      | none => (parseOloop fuel rest).map (fun r => (Jval.obj r.1, r.2))
    else (parseNum (b :: rest)).map (fun r => (Jval.num r.1, r.2))
/-- Element loop of a nonempty array, after the opening bracket. -/
def parseAloop : Nat → List Nat → Option (JArr × List Nat)
  | 0, _ => none
  | fuel + 1, s =>
    match parseV fuel s with
    | none => none
    | some vr =>
      match stripByte 93 vr.2 with
      | some r => some (JArr.cons vr.1 JArr.nil, r)
      | none =>
        match stripByte 44 vr.2 with
        | none => none
        | some s2 => (parseAloop fuel s2).map (fun r => (JArr.cons vr.1 r.1, r.2))
/-- Member loop of a nonempty object, after the opening brace. -/
def parseOloop : Nat → List Nat → Option (JObj × List Nat)
  | 0, _ => none
  | fuel + 1, s =>
    match stripByte 34 s with
    | none => none
    | some s0 =>
      match parseStr s0 with
      | none => none
      | some kr =>
        match stripByte 58 kr.2 with
        | none => none
        | some s2 =>
          match parseV fuel s2 with
          | none => none
          | some vr =>
            match stripByte 125 vr.2 with
            | some r => some (JObj.cons kr.1 vr.1 JObj.nil, r)
            | none =>
              match stripByte 44 vr.2 with
              | none => none
              | some s4 => (parseOloop fuel s4).map (fun r => (JObj.cons kr.1 vr.1 r.1, r.2))
end

/-! ### The encode / decode pipeline of a policy document -/

mutual
/-- Well-formedness of a document in the byte model: every string and key
byte is ASCII (Go strings are UTF-8; the byte model covers the ASCII
ones). -/
def bytesOkV : Jval → Bool
  | Jval.null => true
  | Jval.boolean _ => true
  | Jval.num _ => true
  | Jval.str s => s.all (fun b => decide (b < 128))
  | Jval.arr a => bytesOkA a
  | Jval.obj o => bytesOkO o
/-- Well-formedness of an array body. -/
def bytesOkA : JArr → Bool
  | JArr.nil => true
  | JArr.cons v a => bytesOkV v && bytesOkA a
/-- Well-formedness of an object body. -/
def bytesOkO : JObj → Bool
  | JObj.nil => true
  | JObj.cons k v o => k.all (fun b => decide (b < 128)) && bytesOkV v && bytesOkO o
end

/-- `PolicyDocument.Encode` (part_001 lines 16-18): query-escape of the
marshalled JSON bytes. -/
def encodePolicyDocument (d : PolicyDocument) : List Nat :=
  queryEscape (jprintV (Jval.obj d))

/-- `NewPolicyDocumentFromEncodedJson` (part_001 lines 48-60): query-unescape,
then unmarshal; `none` is the error return. -/
def newPolicyDocumentFromEncodedJson (s : List Nat) : Option PolicyDocument :=
  match queryUnescape s with
  | none => none
  | some j =>
    match parseV (j.length + 1) j with
    | none => none
    | some vr =>
      match vr.1 with
      | Jval.obj d => if vr.2.isEmpty then some d else none
      | _ => none

/-- A lowercase hex digit byte is ASCII. -/
theorem hexLo_lt {d : Nat} (h : d < 16) : hexLo d < 128 := by
  rw [hexLo]; split_ifs <;> omega

/-- Escaping an ASCII string yields ASCII bytes. -/
theorem escBytes_lt : ∀ (s : List Nat), (∀ c ∈ s, c < 128) →
    ∀ b ∈ escBytes s, b < 128 := by
  intro s
  induction s with
  | nil => intro _ b hb; simp [escBytes] at hb
  | cons c s2 ih =>
    intro h b hb
    rw [escBytes] at hb
    rcases List.mem_append.mp hb with hb1 | hb2
    · have hc : c < 128 := h c (List.mem_cons_self c s2)
      have hl1 : hexLo (c / 16) < 128 := hexLo_lt (by omega)
      have hl2 : hexLo (c % 16) < 128 := hexLo_lt (by omega)
      rw [escByte] at hb1
      split_ifs at hb1 <;> simp at hb1 <;>
        rcases hb1 with rfl | rfl | rfl | rfl | rfl | rfl <;>
          first | omega | exact hl1 | exact hl2
    · exact ih (fun x hx => h x (List.mem_cons_of_mem c hx)) b hb2

theorem stripByte_eq (x : Nat) (rest : List Nat) :
    stripByte x (x :: rest) = some rest := by
  rw [stripByte, if_pos rfl]

theorem stripByte_ne {b x : Nat} (h : ¬ b = x) (rest : List Nat) :
    stripByte x (b :: rest) = none := by
  rw [stripByte, if_neg h]

theorem stripLit_pre (lit rest : List Nat) :
    stripLit lit (lit ++ rest) = some rest := by
  rw [stripLit, if_pos (isPre_append_self lit rest), List.drop_left]

/-- A byte list starting (if at all) with a JSON delimiter. -/
def sepj (l : List Nat) : Prop :=
  ∀ b t, l = b :: t → b = 44 ∨ b = 93 ∨ b = 125

theorem sepj_nil : sepj [] := fun b t ht => absurd ht (by simp)

theorem sepj_cons {b0 : Nat} (l : List Nat)
    (h : b0 = 44 ∨ b0 = 93 ∨ b0 = 125) : sepj (b0 :: l) := by
  intro b t ht
  injection ht with h1 h2
  omega

theorem sepj_sepn {l : List Nat} (h : sepj l) : sepn l := by
  intro b t ht
  have := h b t ht
  omega

/-- Parsing back an escaped string body up to the closing quote. -/
theorem parseStrF_esc : ∀ (s : List Nat) (fuel : Nat) (rest : List Nat),
    (∀ b ∈ s, b < 128) → (escBytes s).length < fuel →
    parseStrF fuel (escBytes s ++ 34 :: rest) = some (s, rest) := by
  intro s
  induction s with
  | nil =>
    intro fuel rest _ hlen
    match fuel, hlen with
    | fuel2 + 1, _ =>
      show parseStrF (fuel2 + 1) (34 :: rest) = some ([], rest)
      rw [parseStrF, if_pos rfl]
  | cons c s2 ih =>
    intro fuel rest hall hlen
    have hc : c < 128 := hall c (List.mem_cons_self c s2)
    have hs2 : ∀ b ∈ s2, b < 128 := fun b hb => hall b (List.mem_cons_of_mem c hb)
    rw [escBytes] at hlen ⊢
    rw [escByte] at hlen ⊢
    split_ifs at hlen ⊢ with h1 h2 h3 h4 h5 h6
    · subst h1
      simp only [List.length_append, List.length_cons, List.length_nil] at hlen
      match fuel, hlen with
      | fuel2 + 1, hl2 =>
        simp only [List.cons_append, List.nil_append]
        rw [parseStrF, if_neg (by omega), if_pos rfl]
        have hesc : escSeq (34 :: (escBytes s2 ++ 34 :: rest))
            = some ([34], escBytes s2 ++ 34 :: rest) := by
          rw [escSeq, if_neg (by omega)]
          rfl
        rw [hesc]
        show (parseStrF fuel2 (escBytes s2 ++ 34 :: rest)).map
            (fun r => ([34] ++ r.1, r.2)) = some (34 :: s2, rest)
        rw [ih fuel2 rest hs2 (by omega)]
        rfl
    · subst h2
      simp only [List.length_append, List.length_cons, List.length_nil] at hlen
      match fuel, hlen with
      | fuel2 + 1, hl2 =>
        simp only [List.cons_append, List.nil_append]
        rw [parseStrF, if_neg (by omega), if_pos rfl]
        have hesc : escSeq (92 :: (escBytes s2 ++ 34 :: rest))
            = some ([92], escBytes s2 ++ 34 :: rest) := by
          rw [escSeq, if_neg (by omega)]
          rfl
        rw [hesc]
        show (parseStrF fuel2 (escBytes s2 ++ 34 :: rest)).map
            (fun r => ([92] ++ r.1, r.2)) = some (92 :: s2, rest)
        rw [ih fuel2 rest hs2 (by omega)]
        rfl
    · subst h3
      simp only [List.length_append, List.length_cons, List.length_nil] at hlen
      match fuel, hlen with
      | fuel2 + 1, hl2 =>
        simp only [List.cons_append, List.nil_append]
        rw [parseStrF, if_neg (by omega), if_pos rfl]
        have hesc : escSeq (110 :: (escBytes s2 ++ 34 :: rest))
            = some ([10], escBytes s2 ++ 34 :: rest) := by
          rw [escSeq, if_neg (by omega)]
          rfl
        rw [hesc]
        show (parseStrF fuel2 (escBytes s2 ++ 34 :: rest)).map
            (fun r => ([10] ++ r.1, r.2)) = some (10 :: s2, rest)
        rw [ih fuel2 rest hs2 (by omega)]
        rfl
    · subst h4
      simp only [List.length_append, List.length_cons, List.length_nil] at hlen
      match fuel, hlen with
      | fuel2 + 1, hl2 =>
        simp only [List.cons_append, List.nil_append]
        rw [parseStrF, if_neg (by omega), if_pos rfl]
        have hesc : escSeq (114 :: (escBytes s2 ++ 34 :: rest))
            = some ([13], escBytes s2 ++ 34 :: rest) := by
          rw [escSeq, if_neg (by omega)]
          rfl
        rw [hesc]
        show (parseStrF fuel2 (escBytes s2 ++ 34 :: rest)).map
            (fun r => ([13] ++ r.1, r.2)) = some (13 :: s2, rest)
        rw [ih fuel2 rest hs2 (by omega)]
        rfl
    · subst h5
      simp only [List.length_append, List.length_cons, List.length_nil] at hlen
      match fuel, hlen with
      | fuel2 + 1, hl2 =>
        simp only [List.cons_append, List.nil_append]
        rw [parseStrF, if_neg (by omega), if_pos rfl]
        have hesc : escSeq (116 :: (escBytes s2 ++ 34 :: rest))
            = some ([9], escBytes s2 ++ 34 :: rest) := by
          rw [escSeq, if_neg (by omega)]
          rfl
        rw [hesc]
        show (parseStrF fuel2 (escBytes s2 ++ 34 :: rest)).map
            (fun r => ([9] ++ r.1, r.2)) = some (9 :: s2, rest)
        rw [ih fuel2 rest hs2 (by omega)]
        rfl
    · simp only [List.length_append, List.length_cons, List.length_nil] at hlen
      match fuel, hlen with
      | fuel2 + 1, hl2 =>
        simp only [List.cons_append, List.nil_append]
        rw [parseStrF, if_neg (by omega), if_pos rfl]
        have hu : unescU (48 :: 48 :: hexLo (c / 16) :: hexLo (c % 16)
              :: (escBytes s2 ++ 34 :: rest))
            = some (c, escBytes s2 ++ 34 :: rest) := by
          rw [unescU]
          rw [show hexVal 48 = some 0 from rfl,
              hexVal_hexLo (show c / 16 < 16 by omega),
              hexVal_hexLo (show c % 16 < 16 by omega)]
          exact congrArg some (by rw [show ((0 * 16 + 0) * 16 + c / 16) * 16 + c % 16 = c from by omega])
        have hesc : escSeq (117 :: 48 :: 48 :: hexLo (c / 16) :: hexLo (c % 16)
              :: (escBytes s2 ++ 34 :: rest))
            = some ([c], escBytes s2 ++ 34 :: rest) := by
          rw [escSeq, if_pos rfl, hu]
          show some (utf8Bytes c, escBytes s2 ++ 34 :: rest) = _
          rw [utf8Bytes, if_pos hc]
        rw [hesc]
        show (parseStrF fuel2 (escBytes s2 ++ 34 :: rest)).map
            (fun r => ([c] ++ r.1, r.2)) = some (c :: s2, rest)
        rw [ih fuel2 rest hs2 (by omega)]
        rfl
    · simp only [List.length_append, List.length_cons, List.length_nil] at hlen
      match fuel, hlen with
      | fuel2 + 1, hl2 =>
        simp only [List.cons_append, List.nil_append]
        rw [parseStrF, if_neg h1, if_neg h2, if_neg (by omega)]
        rw [ih fuel2 rest hs2 (by omega)]
        rfl

/-- Parsing back an escaped, quoted-terminated string. -/
theorem parseStr_esc (s rest : List Nat) (hs : ∀ b ∈ s, b < 128) :
    parseStr (escBytes s ++ 34 :: rest) = some (s, rest) := by
  rw [parseStr]
  exact parseStrF_esc s _ rest hs (by simp [List.length_append]; omega)

/-- Every printed value starts with a byte that is not a closing bracket,
comma or closing brace. -/
theorem jprintV_head (v : Jval) :
    ∃ b t, jprintV v = b :: t ∧ ¬ b = 93 ∧ ¬ b = 44 ∧ ¬ b = 125 := by
  cases v with
  | null => exact ⟨110, _, rfl, by omega, by omega, by omega⟩
  | boolean bb =>
    cases bb
    · exact ⟨102, _, rfl, by omega, by omega, by omega⟩
    · exact ⟨116, _, rfl, by omega, by omega, by omega⟩
  | num i =>
    rcases i with n | n
    · obtain ⟨hne, hall, _⟩ := natBytes_spec n
      rcases hbytes : natBytes n with _ | ⟨d, ds⟩
      · exact absurd hbytes hne
      · rw [hbytes] at hall
        have hd := hall d (List.mem_cons_self d ds)
        refine ⟨d, ds, ?_, by omega, by omega, by omega⟩
        rw [show jprintV (Jval.num (Int.ofNat n)) = intBytes (Int.ofNat n) from rfl,
            intBytes, if_neg (by rw [Int.ofNat_eq_natCast]; omega)]
        exact hbytes
    · refine ⟨45, natBytes (n + 1), ?_, by omega, by omega, by omega⟩
      rw [show jprintV (Jval.num (Int.negSucc n)) = intBytes (Int.negSucc n) from rfl,
          intBytes, if_pos (Int.negSucc_lt_zero n)]
      rfl
  | str s => exact ⟨34, _, rfl, by omega, by omega, by omega⟩
  | arr a => exact ⟨91, _, rfl, by omega, by omega, by omega⟩
  | obj o => exact ⟨123, _, rfl, by omega, by omega, by omega⟩

mutual
/-- A well-formed value prints to ASCII bytes. -/
theorem printedLtV : ∀ (v : Jval), bytesOkV v = true → ∀ b ∈ jprintV v, b < 128
  | Jval.null, _, b, hb => by simp [jprintV] at hb; omega
  | Jval.boolean bb, _, b, hb => by
      cases bb <;> simp [jprintV] at hb <;> omega
  | Jval.num i, _, b, hb => by
      rcases i with n | n
      · obtain ⟨hne, hall, _⟩ := natBytes_spec n
        rw [show jprintV (Jval.num (Int.ofNat n)) = intBytes (Int.ofNat n) from rfl,
            intBytes, if_neg (by rw [Int.ofNat_eq_natCast]; omega)] at hb
        have := hall b hb
        omega
      · rw [show jprintV (Jval.num (Int.negSucc n)) = intBytes (Int.negSucc n) from rfl,
            intBytes, if_pos (Int.negSucc_lt_zero n)] at hb
        obtain ⟨hne, hall, _⟩ := natBytes_spec (n + 1)
        rcases List.mem_cons.mp hb with rfl | hb2
        · omega
        · have := hall b (by exact hb2)
          omega
  | Jval.str s, h, b, hb => by
      have hs : ∀ c ∈ s, c < 128 := by
        rw [bytesOkV] at h
        intro c hcm
        have := List.all_eq_true.mp h c hcm
        exact of_decide_eq_true this
      rw [show jprintV (Jval.str s) = 34 :: (escBytes s ++ [34]) from rfl] at hb
      rcases List.mem_cons.mp hb with rfl | hb2
      · omega
      · rcases List.mem_append.mp hb2 with hb3 | hb4
        · exact escBytes_lt s hs b hb3
        · simp at hb4; omega
  | Jval.arr a, h, b, hb => by
      rw [show jprintV (Jval.arr a) = 91 :: (jprintA a ++ [93]) from rfl] at hb
      rw [bytesOkV] at h
      rcases List.mem_cons.mp hb with rfl | hb2
      · omega
      · rcases List.mem_append.mp hb2 with hb3 | hb4
        · exact printedLtA a h b hb3
        · simp at hb4; omega
  | Jval.obj o, h, b, hb => by
      rw [show jprintV (Jval.obj o) = 123 :: (jprintO o ++ [125]) from rfl] at hb
      rw [bytesOkV] at h
      rcases List.mem_cons.mp hb with rfl | hb2
      · omega
      · rcases List.mem_append.mp hb2 with hb3 | hb4
        · exact printedLtO o h b hb3
        · simp at hb4; omega
/-- A well-formed array body prints to ASCII bytes. -/
theorem printedLtA : ∀ (a : JArr), bytesOkA a = true → ∀ b ∈ jprintA a, b < 128
  | JArr.nil, _, b, hb => by simp [jprintA] at hb
  | JArr.cons v JArr.nil, h, b, hb => by
      rw [bytesOkA, Bool.and_eq_true] at h
      rw [show jprintA (JArr.cons v JArr.nil) = jprintV v from rfl] at hb
      exact printedLtV v h.1 b hb
  | JArr.cons v (JArr.cons w a2), h, b, hb => by
      rw [bytesOkA, Bool.and_eq_true] at h
      rw [show jprintA (JArr.cons v (JArr.cons w a2))
          = jprintV v ++ (44 :: jprintA (JArr.cons w a2)) from rfl] at hb
      rcases List.mem_append.mp hb with hb1 | hb2
      · exact printedLtV v h.1 b hb1
      · rcases List.mem_cons.mp hb2 with rfl | hb3
        · omega
        · exact printedLtA (JArr.cons w a2) h.2 b hb3
/-- A well-formed object body prints to ASCII bytes. -/
theorem printedLtO : ∀ (o : JObj), bytesOkO o = true → ∀ b ∈ jprintO o, b < 128
  | JObj.nil, _, b, hb => by simp [jprintO] at hb
  | JObj.cons k v JObj.nil, h, b, hb => by
      rw [bytesOkO, Bool.and_eq_true, Bool.and_eq_true] at h
      have hk : ∀ c ∈ k, c < 128 := by
        intro c hcm
        exact of_decide_eq_true (List.all_eq_true.mp h.1.1 c hcm)
      rw [show jprintO (JObj.cons k v JObj.nil)
          = quoteBytes k ++ (58 :: jprintV v) from rfl] at hb
      rcases List.mem_append.mp hb with hb1 | hb2
      · rw [quoteBytes] at hb1
        rcases List.mem_cons.mp hb1 with rfl | hb3
        · omega
        · rcases List.mem_append.mp hb3 with hb4 | hb5
          · exact escBytes_lt k hk b hb4
          · simp at hb5; omega
      · rcases List.mem_cons.mp hb2 with rfl | hb3
        · omega
        · exact printedLtV v h.1.2 b hb3
  | JObj.cons k v (JObj.cons k2 w o2), h, b, hb => by
      rw [bytesOkO, Bool.and_eq_true, Bool.and_eq_true] at h
      have hk : ∀ c ∈ k, c < 128 := by
        intro c hcm
        exact of_decide_eq_true (List.all_eq_true.mp h.1.1 c hcm)
      rw [show jprintO (JObj.cons k v (JObj.cons k2 w o2))
          = quoteBytes k ++ (58 :: (jprintV v ++ (44 :: jprintO (JObj.cons k2 w o2)))) from rfl] at hb
      rcases List.mem_append.mp hb with hb1 | hb2
      · rw [quoteBytes] at hb1
        rcases List.mem_cons.mp hb1 with rfl | hb3
        · omega
        · rcases List.mem_append.mp hb3 with hb4 | hb5
          · exact escBytes_lt k hk b hb4
          · simp at hb5; omega
      · rcases List.mem_cons.mp hb2 with rfl | hb3
        · omega
        · rcases List.mem_append.mp hb3 with hb4 | hb5
          · exact printedLtV v h.1.2 b hb4
          · rcases List.mem_cons.mp hb5 with rfl | hb6
            · omega
            · exact printedLtO (JObj.cons k2 w o2) h.2 b hb6
end

theorem jprintA_one (v : Jval) : jprintA (JArr.cons v JArr.nil) = jprintV v := rfl

theorem jprintA_more (v w : Jval) (a2 : JArr) :
    jprintA (JArr.cons v (JArr.cons w a2))
      = jprintV v ++ (44 :: jprintA (JArr.cons w a2)) := rfl

theorem jprintO_one (k : List Nat) (v : Jval) :
    jprintO (JObj.cons k v JObj.nil) = quoteBytes k ++ (58 :: jprintV v) := rfl

theorem jprintO_more (k : List Nat) (v : Jval) (k2 : List Nat) (w : Jval) (o2 : JObj) :
    jprintO (JObj.cons k v (JObj.cons k2 w o2))
      = quoteBytes k ++ (58 :: (jprintV v ++ (44 :: jprintO (JObj.cons k2 w o2)))) := rfl

/-- With enough fuel, the parser inverts the printer: a printed value
followed by a delimiter parses back to exactly that value, and likewise for
the array and object element loops up to their closing bracket. -/
theorem parse_print : ∀ (fuel : Nat),
    (∀ (v : Jval) (rest : List Nat), bytesOkV v = true → sepj rest →
      (jprintV v).length ≤ fuel → parseV fuel (jprintV v ++ rest) = some (v, rest)) ∧
    (∀ (a : JArr) (rest : List Nat), bytesOkA a = true →
      (jprintA a).length + 1 ≤ fuel → a ≠ JArr.nil →
      parseAloop fuel (jprintA a ++ 93 :: rest) = some (a, rest)) ∧
    (∀ (o : JObj) (rest : List Nat), bytesOkO o = true →
      (jprintO o).length + 1 ≤ fuel → o ≠ JObj.nil →
      parseOloop fuel (jprintO o ++ 125 :: rest) = some (o, rest)) := by
  intro fuel
  induction fuel with
  | zero =>
    refine ⟨?_, ?_, ?_⟩
    · intro v rest hok hsep hlen
      obtain ⟨b, t, hbt, _⟩ := jprintV_head v
      rw [hbt] at hlen
      simp at hlen
    · intro a rest _ hlen _
      omega
    · intro o rest _ hlen _
      omega
  | succ f ih =>
    obtain ⟨ihV, ihA, ihO⟩ := ih
    refine ⟨?_, ?_, ?_⟩
    · intro v rest hok hsep hlen
      cases v with
      | null =>
        show parseV (f + 1) (110 :: 117 :: 108 :: 108 :: rest) = some (Jval.null, rest)
        rw [parseV, if_pos rfl,
            show (117 :: 108 :: 108 :: rest) = [117, 108, 108] ++ rest from rfl,
            stripLit_pre]
        rfl
      | boolean bb =>
        cases bb
        · show parseV (f + 1) (102 :: 97 :: 108 :: 115 :: 101 :: rest)
            = some (Jval.boolean false, rest)
          rw [parseV, if_neg (by omega), if_neg (by omega), if_pos rfl,
              show (97 :: 108 :: 115 :: 101 :: rest) = [97, 108, 115, 101] ++ rest from rfl,
              stripLit_pre]
          rfl
        · show parseV (f + 1) (116 :: 114 :: 117 :: 101 :: rest)
            = some (Jval.boolean true, rest)
          rw [parseV, if_neg (by omega), if_pos rfl,
              show (114 :: 117 :: 101 :: rest) = [114, 117, 101] ++ rest from rfl,
              stripLit_pre]
          rfl
      | num i =>
        rcases i with n | n
        · obtain ⟨hne, hall, _⟩ := natBytes_spec n
          rcases hbytes : natBytes n with _ | ⟨d, ds⟩
          · exact absurd hbytes hne
          · rw [hbytes] at hall
            have hd := hall d (List.mem_cons_self d ds)
            have hform : jprintV (Jval.num (Int.ofNat n)) ++ rest = d :: (ds ++ rest) := by
              rw [show jprintV (Jval.num (Int.ofNat n)) = intBytes (Int.ofNat n) from rfl,
                  intBytes, if_neg (by rw [Int.ofNat_eq_natCast]; omega),
                  show (Int.ofNat n).toNat = n from rfl, hbytes]
              rfl
            rw [hform, parseV, if_neg (by omega), if_neg (by omega), if_neg (by omega),
                if_neg (by omega), if_neg (by omega), if_neg (by omega),
                ← List.cons_append, ← hbytes,
                show (natBytes n : List Nat) = intBytes (Int.ofNat n) from by
                  rw [intBytes, if_neg (by rw [Int.ofNat_eq_natCast]; omega)]
                  rfl,
                parseNum_int (Int.ofNat n) rest (sepj_sepn hsep)]
            rfl
        · have hform : jprintV (Jval.num (Int.negSucc n)) ++ rest
              = 45 :: (natBytes (n + 1) ++ rest) := by
            rw [show jprintV (Jval.num (Int.negSucc n)) = intBytes (Int.negSucc n) from rfl,
                intBytes, if_pos (Int.negSucc_lt_zero n)]
            rfl
          rw [hform, parseV, if_neg (by omega), if_neg (by omega), if_neg (by omega),
              if_neg (by omega), if_neg (by omega), if_neg (by omega),
              ← List.cons_append,
              show (45 :: natBytes (n + 1) : List Nat) = intBytes (Int.negSucc n) from by
                rw [intBytes, if_pos (Int.negSucc_lt_zero n)]
                rfl,
              parseNum_int (Int.negSucc n) rest (sepj_sepn hsep)]
          rfl
      | str s =>
        have hs : ∀ c ∈ s, c < 128 := by
          rw [bytesOkV] at hok
          intro c hcm
          exact of_decide_eq_true (List.all_eq_true.mp hok c hcm)
        have hform : jprintV (Jval.str s) ++ rest = 34 :: (escBytes s ++ 34 :: rest) := by
          rw [show jprintV (Jval.str s) = 34 :: (escBytes s ++ [34]) from rfl]
          simp [List.cons_append, List.append_assoc, List.singleton_append]
        rw [hform, parseV, if_neg (by omega), if_neg (by omega), if_neg (by omega),
            if_pos rfl, parseStr_esc s rest hs]
        rfl
      | arr a =>
        cases a with
        | nil =>
          show parseV (f + 1) (91 :: 93 :: rest) = some (Jval.arr JArr.nil, rest)
          rw [parseV, if_neg (by omega), if_neg (by omega), if_neg (by omega),
              if_neg (by omega), if_pos rfl, stripByte_eq]
        | cons w a2 =>
          rw [bytesOkV] at hok
          have hlen2 : (jprintA (JArr.cons w a2)).length + 1 ≤ f := by
            rw [show jprintV (Jval.arr (JArr.cons w a2))
                = 91 :: (jprintA (JArr.cons w a2) ++ [93]) from rfl] at hlen
            simp only [List.length_cons, List.length_append, List.length_nil] at hlen
            omega
          have hform : jprintV (Jval.arr (JArr.cons w a2)) ++ rest
              = 91 :: (jprintA (JArr.cons w a2) ++ 93 :: rest) := by
            rw [show jprintV (Jval.arr (JArr.cons w a2))
                = 91 :: (jprintA (JArr.cons w a2) ++ [93]) from rfl]
            simp [List.cons_append, List.append_assoc, List.singleton_append]
          obtain ⟨b, t, hbt, hb93, _, _⟩ := jprintV_head w
          have hstart : ∃ u, jprintA (JArr.cons w a2) = jprintV w ++ u := by
            cases a2 with
            | nil => exact ⟨[], (jprintA_one w).trans (List.append_nil (jprintV w)).symm⟩
            | cons w2 a3 => exact ⟨44 :: jprintA (JArr.cons w2 a3), jprintA_more w w2 a3⟩
          obtain ⟨u, hu⟩ := hstart
          have hnone : stripByte 93 (jprintA (JArr.cons w a2) ++ 93 :: rest) = none := by
            rw [hu, hbt]
            simp only [List.cons_append, List.append_assoc]
            exact stripByte_ne hb93 _
          rw [hform, parseV, if_neg (by omega), if_neg (by omega), if_neg (by omega),
              if_neg (by omega), if_pos rfl, hnone]
          show (parseAloop f (jprintA (JArr.cons w a2) ++ 93 :: rest)).map
              (fun r => (Jval.arr r.1, r.2)) = some (Jval.arr (JArr.cons w a2), rest)
          rw [ihA (JArr.cons w a2) rest hok hlen2 (fun hX => JArr.noConfusion hX)]
          rfl
      | obj o =>
        cases o with
        | nil =>
          show parseV (f + 1) (123 :: 125 :: rest) = some (Jval.obj JObj.nil, rest)
          rw [parseV, if_neg (by omega), if_neg (by omega), if_neg (by omega),
              if_neg (by omega), if_neg (by omega), if_pos rfl, stripByte_eq]
        | cons k w o2 =>
          rw [bytesOkV] at hok
          have hlen2 : (jprintO (JObj.cons k w o2)).length + 1 ≤ f := by
            rw [show jprintV (Jval.obj (JObj.cons k w o2))
                = 123 :: (jprintO (JObj.cons k w o2) ++ [125]) from rfl] at hlen
            simp only [List.length_cons, List.length_append, List.length_nil] at hlen
            omega
          have hform : jprintV (Jval.obj (JObj.cons k w o2)) ++ rest
              = 123 :: (jprintO (JObj.cons k w o2) ++ 125 :: rest) := by
            rw [show jprintV (Jval.obj (JObj.cons k w o2))
                = 123 :: (jprintO (JObj.cons k w o2) ++ [125]) from rfl]
            simp [List.cons_append, List.append_assoc, List.singleton_append]
          have hstart : ∃ u, jprintO (JObj.cons k w o2) = 34 :: u := by
            cases o2 with
            | nil => exact ⟨_, rfl⟩
            | cons k2 w2 o3 => exact ⟨_, rfl⟩
          obtain ⟨u, hu⟩ := hstart
          have hnone : stripByte 125 (jprintO (JObj.cons k w o2) ++ 125 :: rest) = none := by
            rw [hu]
            simp only [List.cons_append]
            exact stripByte_ne (by omega) _
          rw [hform, parseV, if_neg (by omega), if_neg (by omega), if_neg (by omega),
              if_neg (by omega), if_neg (by omega), if_pos rfl, hnone]
          show (parseOloop f (jprintO (JObj.cons k w o2) ++ 125 :: rest)).map
              (fun r => (Jval.obj r.1, r.2)) = some (Jval.obj (JObj.cons k w o2), rest)
          rw [ihO (JObj.cons k w o2) rest hok hlen2 (fun hX => JObj.noConfusion hX)]
          rfl
    · intro a rest hok hlen hne
      cases a with
      | nil => exact absurd rfl hne
      | cons v a2 =>
        rw [bytesOkA, Bool.and_eq_true] at hok
        cases a2 with
        | nil =>
          rw [jprintA_one] at hlen ⊢
          rw [parseAloop]
          simp only [ihV v (93 :: rest) hok.1 (sepj_cons rest (by omega)) (by omega),
            stripByte_eq]
        | cons w a3 =>
          rw [jprintA_more] at hlen ⊢
          have hlens := hlen
          simp only [List.length_append, List.length_cons] at hlens
          rw [List.append_assoc]
          simp only [List.cons_append]
          rw [parseAloop]
          have hV := ihV v (44 :: (jprintA (JArr.cons w a3) ++ 93 :: rest)) hok.1
            (sepj_cons _ (by omega)) (by omega)
          have hA := ihA (JArr.cons w a3) rest hok.2 (by omega)
            (fun hX => JArr.noConfusion hX)
          simp only [hV, stripByte_ne (show ¬ (44 : Nat) = 93 from by omega),
            stripByte_eq, hA]
          rfl
    · intro o rest hok hlen hne
      cases o with
      | nil => exact absurd rfl hne
      | cons k v o2 =>
        rw [bytesOkO, Bool.and_eq_true, Bool.and_eq_true] at hok
        have hk : ∀ c ∈ k, c < 128 := fun c hcm =>
          of_decide_eq_true (List.all_eq_true.mp hok.1.1 c hcm)
        cases o2 with
        | nil =>
          rw [jprintO_one] at hlen ⊢
          have hlens := hlen
          simp only [quoteBytes, List.length_append, List.length_cons,
            List.length_nil] at hlens
          have hform : (quoteBytes k ++ (58 :: jprintV v)) ++ 125 :: rest
              = 34 :: (escBytes k ++ 34 :: 58 :: (jprintV v ++ 125 :: rest)) := by
            rw [quoteBytes]
            simp [List.cons_append, List.append_assoc, List.singleton_append]
          rw [hform, parseOloop]
          have hV := ihV v (125 :: rest) hok.1.2 (sepj_cons _ (by omega)) (by omega)
          simp only [stripByte_eq,
            parseStr_esc k (58 :: (jprintV v ++ 125 :: rest)) hk, hV]
        | cons k2 w o3 =>
          rw [jprintO_more] at hlen ⊢
          have hlens := hlen
          simp only [quoteBytes, List.length_append, List.length_cons,
            List.length_nil] at hlens
          have hform : (quoteBytes k
                ++ (58 :: (jprintV v ++ (44 :: jprintO (JObj.cons k2 w o3))))) ++ 125 :: rest
              = 34 :: (escBytes k
                ++ 34 :: 58 :: (jprintV v ++ 44 :: (jprintO (JObj.cons k2 w o3) ++ 125 :: rest))) := by
            rw [quoteBytes]
            simp [List.cons_append, List.append_assoc, List.singleton_append]
          rw [hform, parseOloop]
          have hV := ihV v (44 :: (jprintO (JObj.cons k2 w o3) ++ 125 :: rest)) hok.1.2
            (sepj_cons _ (by omega)) (by omega)
          have hO := ihO (JObj.cons k2 w o3) rest hok.2 (by omega)
            (fun hX => JObj.noConfusion hX)
          simp only [stripByte_eq,
            parseStr_esc k (58 :: (jprintV v ++ 44 :: (jprintO (JObj.cons k2 w o3) ++ 125 :: rest))) hk,
            hV, stripByte_ne (show ¬ (44 : Nat) = 125 from by omega), hO]
          rfl

/-- C2: Encoding a policy document with `PolicyDocument.Encode`
(`json.Marshal` followed by `url.QueryEscape`) and decoding the result with
`NewPolicyDocumentFromEncodedJson` (`url.QueryUnescape` followed by
`json.Unmarshal`) returns exactly the original document, for every document
whose strings and keys are ASCII in the byte model. -/
theorem policyDocument_roundtrip (d : PolicyDocument) (h : bytesOkO d = true) :
    newPolicyDocumentFromEncodedJson (encodePolicyDocument d) = some d := by
  have hok : bytesOkV (Jval.obj d) = true := by rw [bytesOkV]; exact h
  have hlt : ∀ b ∈ jprintV (Jval.obj d), b < 256 := fun b hb => by
    have := printedLtV (Jval.obj d) hok b hb
    omega
  rw [encodePolicyDocument, newPolicyDocumentFromEncodedJson]
  obtain ⟨hV, _, _⟩ := parse_print ((jprintV (Jval.obj d)).length + 1)
  have hp : parseV ((jprintV (Jval.obj d)).length + 1) (jprintV (Jval.obj d))
      = some (Jval.obj d, []) := by
    have hx := hV (Jval.obj d) [] hok sepj_nil (by omega)
    rwa [List.append_nil] at hx
  simp only [queryUnescape_escape _ hlt, hp]
  rfl

/-- A concrete document exercising every JSON constructor. -/
def exDoc : PolicyDocument :=
  JObj.cons [86, 101, 114] (Jval.str [97, 34, 10, 60])
    (JObj.cons [83] (Jval.arr (JArr.cons (Jval.num 12) (JArr.cons (Jval.num (-3))
      (JArr.cons (Jval.boolean true) (JArr.cons Jval.null JArr.nil)))))
      (JObj.cons [69] (Jval.obj (JObj.cons [107] (Jval.str []) JObj.nil)) JObj.nil))

/-- Witness: the round trip applied to the concrete document `exDoc`. -/
theorem policyDocument_roundtrip_witness :
    bytesOkO exDoc = true ∧
      newPolicyDocumentFromEncodedJson (encodePolicyDocument exDoc) = some exDoc :=
  ⟨by decide, policyDocument_roundtrip exDoc (by decide)⟩

end Iamy